import Mathlib

/- Verification of the pRESTO annotation-aware sequence-deduplication core
   (src/CollapseSeq.py) together with the header-annotation codec and algebra
   it relies on (IgCore, modelled from the specification where the module's
   source is absent) and the header-expansion operation (src/ParseHeaders.py).

   Strings are modelled as `List Char`; Python (ordered) dictionaries as
   association lists in insertion order; fallible Python code (KeyError,
   ValueError, ZeroDivisionError) as `Option`; Python `float` values as `ℚ`. -/

namespace Presto

abbrev Str := List Char

/-- Reserved key under which the bare identifier token of a header is stored. -/
def idKey : Str := "ID".toList

/-- Key of the synthesized duplicate-count annotation (CollapseSeq.py line 260). -/
def dupcountKey : Str := "DUPCOUNT".toList

/-- Association-list lookup: value at the first entry whose key is `k`.
    Models Python dictionary subscription / `get`. -/
def alGet {κ α : Type} [DecidableEq κ] : List (κ × α) → κ → Option α
  | [], _ => none
  | p :: t, k => if p.1 = k then some p.2 else alGet t k

/-- Association-list assignment: replaces the value at key `k` in place
    (keeping its position) or appends a new entry at the end.  Models
    assignment into a Python dict / OrderedDict. -/
def alSet {κ α : Type} [DecidableEq κ] : List (κ × α) → κ → α → List (κ × α)
  | [], k, v => [(k, v)]
  | p :: t, k, v => if p.1 = k then (k, v) :: t else p :: alSet t k v

/-- Association-list deletion of the entry at key `k` (first occurrence).
    Models Python `del d[k]` / `d.pop(k, None)`. -/
def alErase {κ α : Type} [DecidableEq κ] : List (κ × α) → κ → List (κ × α)
  | [], _ => []
  | p :: t, k => if p.1 = k then t else p :: alErase t k

/-- Left fold over a list with a step that can fail; failure aborts the fold.
    Models a Python loop whose body may raise. -/
def optFold {α β : Type} (f : α → β → Option α) : α → List β → Option α
  | a, [] => some a
  | a, x :: l =>
    match f a x with
    | none => none
    | some b => optFold f b l

/-- Map with a function that can fail; failure aborts.  Models a Python
    comprehension whose body may raise. -/
def optMap {α β : Type} (f : α → Option β) : List α → Option (List β)
  | [] => some []
  | x :: l =>
    match f x with
    | none => none
    | some y =>
      match optMap f l with
      | none => none
      | some ys => some (y :: ys)

/-- Python `s.split(c)`: splits on every occurrence of `c`; the result is
    never empty (`"".split(c) == [""]`). -/
def splitOnChar (c : Char) : Str → List Str
  | [] => [[]]
  | a :: rest =>
    match splitOnChar c rest with
    | [] => [[]]
    | h :: t => if a = c then [] :: h :: t else (a :: h) :: t

/-- Python `s.split(c, 1)` when `c` occurs in `s`: the parts before and after
    the first occurrence of `c`; `none` when `c` does not occur. -/
def splitOnceOnChar (c : Char) : Str → Option (Str × Str)
  | [] => none
  | a :: rest =>
    if a = c then some ([], rest)
    else
      match splitOnceOnChar c rest with
      | none => none
      | some p => some (a :: p.1, p.2)

/-- Python `c.join(parts)` for a one-character separator. -/
def joinSep (c : Char) : List Str → Str
  | [] => []
  | [s] => s
  | s :: t => s ++ c :: joinSep c t

/-- Ordered mapping from field name to value list — the internal form of a
    header annotation (spec §3: ordered, names unique, first entry is the
    identifier). -/
abbrev AnnotationMap := List (Str × List Str)

/-- The delimiter 3-tuple: field separator, key-value separator, value-list
    separator (default `('|', '=', ',')`). -/
structure Delim where
  fieldSep : Char
  kvSep : Char
  valSep : Char
deriving DecidableEq

/-- The default delimiter tuple `('|', '=', ',')`. -/
def defaultDelim : Delim := ⟨'|', '=', ','⟩

/-- Modelled from the spec: one non-identifier token of a header is split once
    on the key-value separator into field name (case-normalized upper) and
    value text, and the value text is split on the value-list separator; a
    token lacking the key-value separator is a parse error (spec §4.1). -/
def parseToken (d : Delim) (t : Str) : Option (Str × List Str) :=
  match splitOnceOnChar d.kvSep t with
  | none => none
  | some p => some (p.1.map Char.toUpper, splitOnChar d.valSep p.2)

/-- Modelled from the spec: `IgCore.parseAnnotation` is not under src/ (only
    its callers and tests are).  Splits the description on the field
    separator; the first token is the bare identifier stored under `idKey`;
    every later token is parsed by `parseToken`, later duplicates of a field
    name overwriting earlier ones in place (dict assignment). -/
def parseAnn (d : Delim) (desc : Str) : Option AnnotationMap :=
  match splitOnChar d.fieldSep desc with
  | [] => none
  | idTok :: rest =>
    match optMap (parseToken d) rest with
    | none => none
    | some fs => some (fs.foldl (fun m p => alSet m p.1 p.2) [(idKey, [idTok])])

/-- Modelled from the spec: `parseAnnotation` called with required fields
    returns the mapping restricted to exactly those fields in the requested
    order and fails when any requested field is absent (spec §4.1). -/
def parseAnnFields (d : Delim) (fields : List Str) (desc : Str) :
    Option AnnotationMap :=
  match parseAnn d desc with
  | none => none
  | some m =>
    optMap (fun f =>
      match alGet m f with
      | none => none
      | some v => some (f, v)) fields

/-- Serialized form `NAME=v1,v2,...` of one non-identifier field. -/
def fieldToken (d : Delim) (p : Str × List Str) : Str :=
  p.1 ++ d.kvSep :: joinSep d.valSep p.2

/-- Modelled from the spec: `IgCore.flattenAnnotation` is not under src/.
    The identifier value is emitted first bare, every other field as
    `NAME=v1,v2,...`, fields joined by the field separator in map order
    (spec §4.1). -/
def flattenAnn (d : Delim) (m : AnnotationMap) : Str :=
  let idv : Str :=
    match alGet m idKey with
    | some (v :: _) => v
    | _ => []
  joinSep d.fieldSep
    (idv :: (m.filter (fun p => !decide (p.1 = idKey))).map (fieldToken d))

/-- Modelled from the spec: `IgCore.mergeAnnotation` is not under src/.  The
    result starts as `a`; every non-identifier field of `b` extends an
    existing field's value list (appending, or prepending when `prepend`) or
    is added as a new entry at the end (OrderedDict insertion); the
    identifier of the result is `a`'s, unchanged (spec §4.2). -/
def mergeAnn (a b : AnnotationMap) (prepend : Bool) : AnnotationMap :=
  b.foldl (fun r p =>
    if p.1 = idKey then r
    else
      match alGet r p.1 with
      | some vs => alSet r p.1 (if prepend then p.2 ++ vs else vs ++ p.2)
      | none => r ++ [p]) a

/-- Numeric value of a decimal digit, `none` on a non-digit. -/
def digitVal (c : Char) : Option Nat :=
  if c.isDigit then some (c.toNat - 48) else none

/-- Value of a nonempty string of decimal digits, `none` otherwise. -/
def digitsToNat (s : Str) : Option Nat :=
  match s with
  | [] => none
  | _ =>
    optFold (fun a c =>
      match digitVal c with
      | none => none
      | some v => some (10 * a + v)) 0 s

/-- Unsigned decimal literal (`"5"`, `"5.25"`, `".5"`, `"5."`) as an exact
    rational; `none` otherwise. -/
def parseUFloat (s : Str) : Option ℚ :=
  match splitOnceOnChar '.' s with
  | none => (digitsToNat s).map (fun n => (n : ℚ))
  | some p =>
    match p.1, p.2 with
    | [], [] => none
    | i, f =>
      match (if i = [] then some 0 else digitsToNat i),
            (if f = [] then some 0 else digitsToNat f) with
      | some iv, some fv =>
        some ((iv : ℚ) + (fv : ℚ) / ((10 : ℚ) ^ f.length))
      | _, _ => none

/-- Python `float(s)` restricted to signed decimal literals, as an exact
    rational; `none` models `ValueError`.  The comparison direction of the
    engine is insensitive to the float/rational distinction. -/
def parseFloat (s : Str) : Option ℚ :=
  match s with
  | '-' :: t => (parseUFloat t).map Neg.neg
  | '+' :: t => parseUFloat t
  | _ => parseUFloat s

/-- Decimal rendering of a natural number (Python `str(n)`). -/
def renderNat (n : Nat) : Str := Nat.toDigits 10 n

/-- Decimal rendering of an integer. -/
def renderInt (i : Int) : Str :=
  match i with
  | .ofNat n => renderNat n
  | .negSucc n => '-' :: renderNat (n + 1)

/-- Text rendering of a rational collapse result ("emit the numeric value as
    text", spec §4.2); integers render as plain decimals. -/
def ratToText (q : ℚ) : Str :=
  if q.den = 1 then renderInt q.num
  else renderInt q.num ++ '/' :: renderNat q.den

/-- Minimum of a nonempty list of rationals. -/
def qMinL : List ℚ → Option ℚ
  | [] => none
  | a :: t => some (t.foldl min a)

/-- Maximum of a nonempty list of rationals. -/
def qMaxL : List ℚ → Option ℚ
  | [] => none
  | a :: t => some (t.foldl max a)

/-- Unique values in first-seen order (the `set` collapse action). -/
def uniqVals (l : List Str) : List Str :=
  l.foldl (fun acc v => if v ∈ acc then acc else acc ++ [v]) []

/-- Modelled from the spec: the value-list reduction of one collapse action
    (spec §4.2): `min`/`max`/`sum` parse numerically and emit text, `first`/
    `last` pick positionally, `set` keeps unique values in first-seen order,
    `cat` concatenates; unknown actions and non-numeric input fail. -/
def collapseValues (action : Str) (vs : List Str) : Option (List Str) :=
  if action = "min".toList then
    match optMap parseFloat vs with
    | none => none
    | some qs => (qMinL qs).map (fun q => [ratToText q])
  else if action = "max".toList then
    match optMap parseFloat vs with
    | none => none
    | some qs => (qMaxL qs).map (fun q => [ratToText q])
  else if action = "sum".toList then
    match optMap parseFloat vs with
    | none => none
    | some qs => some [ratToText (qs.foldl (fun a b => a + b) 0)]
  else if action = "first".toList then
    match vs with
    | [] => none
    | v :: _ => some [v]
  else if action = "last".toList then
    match vs.getLast? with
    | none => none
    | some v => some [v]
  else if action = "set".toList then some (uniqVals vs)
  else if action = "cat".toList then some [vs.foldl (fun a b => a ++ b) []]
  else none

/-- Modelled from the spec: `IgCore.collapseAnnotation` on a single field —
    reduces that field's value list by the action, failing when the field is
    absent, the action unknown, or numeric parsing fails (spec §4.2). -/
def collapseAnn (action : Str) (field : Str) (m : AnnotationMap) :
    Option AnnotationMap :=
  match alGet m field with
  | none => none
  | some vs =>
    match collapseValues action vs with
    | none => none
    | some w => some (alSet m field w)

/-- Membership in the ambiguous/missing character set `{'.', '-', 'N', 'n'}`
    used by the fuzzy matcher (spec §4.3, presto/Defaults.py line 33). -/
def missingChar (c : Char) : Bool :=
  c == '.' || c == '-' || c == 'N' || c == 'n'

/-- Modelled from the spec: `IgCore.testSeqEqual` is not under src/.  Two
    sequences are equal when they have equal length and at every position the
    characters are identical or at least one belongs to the ambiguous set
    (spec §4.3). -/
def testSeqEqual (a b : Str) : Bool :=
  decide (a.length = b.length) &&
    (a.zip b).all (fun p => p.1 == p.2 || missingChar p.1 || missingChar p.2)

/-- Membership in the character class of CollapseSeq.py's `ambig_re`, the
    regex `[.\-N]` (line 82): `'.'`, `'-'`, capital `'N'` only. -/
def ambigChar (c : Char) : Bool := c == '.' || c == '-' || c == 'N'

/-- Number of ambiguous characters of a sequence string:
    `len(ambig_re.findall(seq_str))` (CollapseSeq.py line 101). -/
def ambigCount (s : Str) : Nat := (s.filter ambigChar).length

/-- Python `seq_str.strip('.-N')` (CollapseSeq.py line 98): consecutive
    ambiguous characters removed from both ends. -/
def innerTrim (s : Str) : Str :=
  ((s.dropWhile ambigChar).reverse.dropWhile ambigChar).reverse

/-- One sequence record: identifier (also its key in the indexed collection),
    sequence string, raw description, and optional per-position quality
    scores (`letter_annotations['phred_quality']`). -/
structure SeqRec where
  id : Str
  seq : Str
  description : Str
  qual : Option (List Nat)
deriving DecidableEq

/-- The unique identifier of CollapseSeq.py lines 104-109: the (possibly
    inner-trimmed) sequence string together with the required-equal
    annotation values (`none` models the Python `None` placeholder used when
    no unique fields are configured). -/
structure UID where
  seqStr : Str
  annVals : Option (List (List Str))
deriving DecidableEq

/-- One value of `uniq_dict` (CollapseSeq.py line 124): the current
    representative, the duplicate count, the representative's ambiguous
    count, and the per-copy-field collected values. -/
structure UniqEntry where
  rep : SeqRec
  count : Nat
  ambig : Nat
  copies : List (List Str)
deriving DecidableEq

abbrev UniqDict := List (UID × UniqEntry)

/-- The configuration of one `collapseSeq` run (CollapseSeq.py lines
    169-171), without the output/IO arguments. -/
structure Config where
  uniqFields : Option (List Str)
  copyFields : Option (List Str)
  copyActions : Option (List Str)
  maxField : Option Str
  minField : Option Str
  inner : Bool
  delim : Delim

/-- The sequence string the engine works on: inner-trimmed when `inner` is
    set (CollapseSeq.py lines 97-98). -/
def effSeq (cfg : Config) (r : SeqRec) : Str :=
  if cfg.inner then innerTrim r.seq else r.seq

/-- The uid of a record (CollapseSeq.py lines 105-109): with unique fields
    configured, the sequence string followed by the parsed required-field
    values in order; otherwise the sequence string paired with `None`. -/
def computeUID (cfg : Config) (r : SeqRec) (seqStr : Str) : Option UID :=
  match cfg.uniqFields with
  | none => some ⟨seqStr, none⟩
  | some fs =>
    match parseAnnFields cfg.delim fs r.description with
    | none => none
    | some m => some ⟨seqStr, some (m.map (fun p => p.2))⟩

/-- The copied values of a record (CollapseSeq.py lines 112-119): one
    collected value list per configured copy field. -/
def computeCID (cfg : Config) (r : SeqRec) : Option (List (List Str)) :=
  match cfg.copyFields with
  | none => some []
  | some fs =>
    match parseAnnFields cfg.delim fs r.description with
    | none => none
    | some m => some (m.map (fun p => p.2))

/-- Python `float(parseAnnotation(desc)[f])` (CollapseSeq.py lines 136-140):
    full header parse, field subscription, numeric conversion; any failure
    models the corresponding KeyError/ValueError. -/
def getFieldNum (d : Delim) (f : Str) (desc : Str) : Option ℚ :=
  match parseAnn d desc with
  | none => none
  | some ann =>
    match alGet ann f with
    | some [v] => parseFloat v
    | _ => none

/-- Mean per-position quality score `float(sum(q))/len(seq)` (CollapseSeq.py
    lines 144-145); `none` models a missing quality or a zero-length record. -/
def qualMean (r : SeqRec) : Option ℚ :=
  match r.qual with
  | none => none
  | some q =>
    if r.seq.length = 0 then none
    else some ((q.sum : ℚ) / (r.seq.length : ℚ))

/-- The replacement test of CollapseSeq.py lines 133-146: with `max_field`
    set, strictly-greater comparison of the parsed field values; otherwise
    with `min_field` set, the same strictly-greater comparison; otherwise a
    strictly-greater comparison of mean qualities when the new record has
    quality scores, and no swap when it does not. -/
def compareSwap (cfg : Config) (rNew rOld : SeqRec) : Option Bool :=
  match cfg.maxField with
  | some f =>
    match getFieldNum cfg.delim f rNew.description,
          getFieldNum cfg.delim f rOld.description with
    | some a, some b => some (decide (b < a))
    | _, _ => none
  | none =>
    match cfg.minField with
    | some f =>
      match getFieldNum cfg.delim f rNew.description,
            getFieldNum cfg.delim f rOld.description with
      | some a, some b => some (decide (b < a))
      | _, _ => none
    | none =>
      match rNew.qual with
      | none => some false
      | some _ =>
        match qualMean rNew, qualMean rOld with
        | some a, some b => some (decide (b < a))
        | _, _ => none

/-- CollapseSeq.py lines 33-57 (`findUID`): exact mode is a key-presence
    check; scoring mode scans the existing keys, matching when the
    required-equal values are exactly equal and the sequence strings are
    equal under ambiguity, first match winning.  The scan order of the
    Python 2.7 `dict` is unspecified; the embedding scans in insertion
    order. -/
def findUID (uid : UID) (searchDict : UniqDict) (score : Bool) : Option UID :=
  if !score then
    if (alGet searchDict uid).isSome then some uid else none
  else
    (searchDict.find? (fun p =>
      decide (p.1.annVals = uid.annVals) &&
        testSeqEqual uid.seqStr p.1.seqStr)).map (fun p => p.1)

/-- The body of the `findUniqueSeq` loop for one search key (CollapseSeq.py
    lines 91-158), acting on `(uniq_dict, kept-pending, dup_keys)`: a record
    over the ambiguity budget stays pending; otherwise it either creates a
    new group or is folded into the matched group (count and copies updated,
    representative conditionally replaced, one key appended to the
    duplicates). -/
def stepRec (cfg : Config) (maxMissing : Nat)
    (acc : UniqDict × List SeqRec × List Str) (r : SeqRec) :
    Option (UniqDict × List SeqRec × List Str) :=
  let seqStr := effSeq cfg r
  let ac := ambigCount seqStr
  if maxMissing < ac then some (acc.1, acc.2.1 ++ [r], acc.2.2)
  else
    match computeUID cfg r seqStr, computeCID cfg r with
    | some uid, some cid =>
      match findUID uid acc.1 (decide (0 < maxMissing)) with
      | none => some (acc.1 ++ [(uid, ⟨r, 1, ac, cid⟩)], acc.2.1, acc.2.2)
      | some m =>
        match alGet acc.1 m with
        | none => none
        | some e =>
          if ac ≤ e.ambig then
            match compareSwap cfg r e.rep with
            | none => none
            | some sw =>
              if sw then
                some (alSet acc.1 m
                    ⟨r, e.count + 1, ac,
                      List.zipWith (fun x y => x ++ y) e.copies cid⟩,
                  acc.2.1, acc.2.2 ++ [e.rep.id])
              else
                some (alSet acc.1 m
                    ⟨e.rep, e.count + 1, e.ambig,
                      List.zipWith (fun x y => x ++ y) e.copies cid⟩,
                  acc.2.1, acc.2.2 ++ [r.id])
          else
            some (alSet acc.1 m
                ⟨e.rep, e.count + 1, e.ambig,
                  List.zipWith (fun x y => x ++ y) e.copies cid⟩,
              acc.2.1, acc.2.2 ++ [r.id])
    | _, _ => none

/-- CollapseSeq.py lines 60-166 (`findUniqueSeq`): one pass with ambiguity
    budget `maxMissing` over the pending records, returning the updated
    unique dictionary, the records still pending, and this pass's duplicate
    keys. -/
def findUniqueSeq (cfg : Config) (maxMissing : Nat) (uniq : UniqDict)
    (searchKeys : List SeqRec) : Option (UniqDict × List SeqRec × List Str) :=
  optFold (stepRec cfg maxMissing) (uniq, [], []) searchKeys

/-- The pass loop of CollapseSeq.py lines 224-244: one `findUniqueSeq` pass
    per budget, duplicate keys accumulated, breaking when nothing remains
    pending; also returns the number of passes executed. -/
def runPasses (cfg : Config) (budgets : List Nat) (uniq : UniqDict)
    (pending : List SeqRec) (dups : List Str) :
    Option ((UniqDict × List SeqRec × List Str) × Nat) :=
  match budgets with
  | [] => some ((uniq, pending, dups), 0)
  | n :: rest =>
    match findUniqueSeq cfg n uniq pending with
    | none => none
    | some (u2, sk2, dk2) =>
      if sk2.isEmpty then some ((u2, sk2, dups ++ dk2), 1)
      else
        match runPasses cfg rest u2 sk2 (dups ++ dk2) with
        | none => none
        | some (res, c) => some ((res.1, res.2.1, res.2.2), c + 1)

/-- The whole engine loop of `collapseSeq` (CollapseSeq.py lines 219-244):
    budgets `0 .. maxMissing`, starting from an empty unique dictionary with
    every record pending. -/
def collapseRun (cfg : Config) (maxMissing : Nat) (records : List SeqRec) :
    Option ((UniqDict × List SeqRec × List Str) × Nat) :=
  runPasses cfg (List.range (maxMissing + 1)) [] records []

/-- The copy-field aggregation loop of CollapseSeq.py lines 255-259 over
    `(field, action, collected values)` triples: each field is inserted into
    the output-append map, collapsed there by its action, and removed from
    the representative's parsed annotation map. -/
def buildApp (items : List (Str × Str × List Str))
    (st : AnnotationMap × AnnotationMap) :
    Option (AnnotationMap × AnnotationMap) :=
  optFold (fun st it =>
    match collapseAnn it.2.1 it.1 (alSet st.2 it.1 it.2.2) with
    | none => none
    | some app2 => some (alErase st.1 it.1, app2)) st items

/-- The output assembly for one group (CollapseSeq.py lines 250-263): parse
    the representative's description, reduce and remove the copy fields, add
    the synthesized duplicate count, merge into the representative's map,
    flatten into the new identifier, and clear the description. -/
def buildOne (cfg : Config) (e : UniqEntry) : Option SeqRec :=
  match parseAnn cfg.delim e.rep.description with
  | none => none
  | some ann =>
    let step2 : Option (AnnotationMap × AnnotationMap) :=
      match cfg.copyFields, cfg.copyActions with
      | some fs, some acts => buildApp (fs.zip (acts.zip e.copies)) (ann, [])
      | _, _ => some (ann, [])
    match step2 with
    | none => none
    | some (ann2, app) =>
      let app2 := alSet app dupcountKey [renderNat e.count]
      some { e.rep with
        id := flattenAnn cfg.delim (mergeAnn ann2 app2 false),
        description := [] }

/-- The unique-output loop of CollapseSeq.py lines 250-265 over all groups. -/
def buildOutput (cfg : Config) (u : UniqDict) : Option (List SeqRec) :=
  optMap (fun p => buildOne cfg p.2) u

/-- ParseHeaders.py lines 89-110 (`expandHeader`): for each named field, the
    field's raw value text is split on the separator, the parts become new
    fields `FIELD1..FIELDN` merged into the header, and the original field is
    deleted. -/
def expandHeader (d : Delim) (sep : Char) (fields : List Str)
    (m : AnnotationMap) : Option AnnotationMap :=
  optFold (fun h f =>
    match alGet h f with
    | none => none
    | some vs =>
      let parts := splitOnChar sep (joinSep d.valSep vs)
      let names := (List.range parts.length).map
        (fun i => f ++ renderNat (i + 1))
      some (alErase (mergeAnn h (names.zip (parts.map (fun p => [p]))) false)
        f)) m fields

/-- Ghost companion of `stepRec`: repeats its branch conditions to record,
    per group, the keys of the records folded into that group (the
    specification-side notion of group membership for the duplicate count). -/
def ghostStep (cfg : Config) (maxMissing : Nat) (uniq : UniqDict) (r : SeqRec)
    (g : List (UID × List Str)) : List (UID × List Str) :=
  let seqStr := effSeq cfg r
  if maxMissing < ambigCount seqStr then g
  else
    match computeUID cfg r seqStr with
    | none => g
    | some uid =>
      match findUID uid uniq (decide (0 < maxMissing)) with
      | none => g ++ [(uid, [r.id])]
      | some m => alSet g m (((alGet g m).getD []) ++ [r.id])

/-- Version of `stepRec` instrumented with the ghost membership map. -/
def stepRecM (cfg : Config) (maxMissing : Nat)
    (x : (UniqDict × List SeqRec × List Str) × List (UID × List Str))
    (r : SeqRec) :
    Option ((UniqDict × List SeqRec × List Str) × List (UID × List Str)) :=
  match stepRec cfg maxMissing x.1 r with
  | none => none
  | some acc2 => some (acc2, ghostStep cfg maxMissing x.1.1 r x.2)

/-- One instrumented pass. -/
def findUniqueSeqM (cfg : Config) (maxMissing : Nat) (uniq : UniqDict)
    (g : List (UID × List Str)) (searchKeys : List SeqRec) :
    Option ((UniqDict × List SeqRec × List Str) × List (UID × List Str)) :=
  optFold (stepRecM cfg maxMissing) ((uniq, [], []), g) searchKeys

/-- The instrumented pass loop. -/
def runPassesM (cfg : Config) (budgets : List Nat) (uniq : UniqDict)
    (pending : List SeqRec) (dups : List Str) (g : List (UID × List Str)) :
    Option (((UniqDict × List SeqRec × List Str) × Nat) ×
      List (UID × List Str)) :=
  match budgets with
  | [] => some (((uniq, pending, dups), 0), g)
  | n :: rest =>
    match findUniqueSeqM cfg n uniq g pending with
    | none => none
    | some ((u2, sk2, dk2), g2) =>
      if sk2.isEmpty then some (((u2, sk2, dups ++ dk2), 1), g2)
      else
        match runPassesM cfg rest u2 sk2 (dups ++ dk2) g2 with
        | none => none
        | some ((res, c), g3) => some (((res.1, res.2.1, res.2.2), c + 1), g3)

/-- The instrumented engine loop. -/
def collapseRunM (cfg : Config) (maxMissing : Nat) (records : List SeqRec) :
    Option (((UniqDict × List SeqRec × List Str) × Nat) ×
      List (UID × List Str)) :=
  runPassesM cfg (List.range (maxMissing + 1)) [] records [] []

/-- Validity of an annotation map relative to a delimiter tuple: the first
    entry is the single-valued identifier, field names are unique,
    upper-case, and free of the field and key-value separators, and every
    field has a nonempty value list whose values are free of the field and
    value-list separators. -/
def validMap (d : Delim) (m : AnnotationMap) : Bool :=
  match m with
  | [] => false
  | (k, vs) :: rest =>
    decide (k = idKey) &&
    (match vs with
     | [idv] => decide (d.fieldSep ∉ idv)
     | _ => false) &&
    decide ((rest.map Prod.fst).Nodup) &&
    rest.all (fun p =>
      decide (p.1 ≠ idKey) && decide (p.1.map Char.toUpper = p.1) &&
      decide (d.fieldSep ∉ p.1) && decide (d.kvSep ∉ p.1) &&
      decide (p.2 ≠ []) &&
      p.2.all (fun v => decide (d.fieldSep ∉ v) && decide (d.valSep ∉ v)))

/-- A record's ambiguous count fits one of the given budgets. -/
def passedBy (budgets : List Nat) (a : Nat) : Bool :=
  budgets.any (fun n => decide (a ≤ n))

/-- The multiset of current representative keys of the unique dictionary. -/
def repIds (u : UniqDict) : Multiset Str :=
  (u.map (fun p => p.2.rep.id) : List Str)

/-- The stored ambiguous count of every group equals its current
    representative's ambiguous count. -/
def GroupInv (cfg : Config) (u : UniqDict) : Prop :=
  ∀ p ∈ u, p.2.ambig = ambigCount (effSeq cfg p.2.rep)

/-- Each group's stored duplicate count agrees with the length of its ghost
    membership list. -/
def CntInv (u : UniqDict) (g : List (UID × List Str)) : Prop :=
  ∀ uid, (alGet u uid).map UniqEntry.count = (alGet g uid).map List.length

/-- A key belongs to the unique-or-duplicate partition of an engine state:
    it is the current representative of some group or was recorded as a
    duplicate. -/
def isUniqueOrDup (u : UniqDict) (dups : List Str) (i : Str) : Prop :=
  (∃ p ∈ u, p.2.rep.id = i) ∨ i ∈ dups

instance decEqEngineState : DecidableEq (UniqDict × List SeqRec × List Str) :=
  inferInstance

instance decEqEngineRes :
    DecidableEq ((UniqDict × List SeqRec × List Str) × Nat) :=
  inferInstance

instance decEqEngineResGhost :
    DecidableEq (((UniqDict × List SeqRec × List Str) × Nat) ×
      List (UID × List Str)) :=
  inferInstance

instance decIsUniqueOrDup (u : UniqDict) (dups : List Str) (i : Str) :
    Decidable (isUniqueOrDup u dups i) := by
  unfold isUniqueOrDup
  infer_instance

/-- A degenerate delimiter tuple whose field separator coincides with the
    key-value separator. -/
def badDelim : Delim := ⟨ '|', '|', ',' ⟩

/-- A valid single-field annotation map used against `badDelim`. -/
def exMap5 : AnnotationMap := [(idKey, [[ 'a' ]]), ([ 'F' ], [[ 'v' ]])]

/-- A two-field annotation map with a multi-valued field. -/
def exMapW : AnnotationMap :=
  [(idKey, [[ 'S', '1' ]]), ([ 'F' ], [[ 'a' ], [ 'b' ]]), ([ 'G' ], [[ 'x' ]])]

/-- A header in which the expandable field `F` is followed by another
    field `G`. -/
def exMap9 : AnnotationMap :=
  [(idKey, [[ 's' ]]), ([ 'F' ], [[ 'a', '+', 'b' ]]), ([ 'G' ], [[ 'x' ]])]

/-- A record with one ambiguous character and numeric annotation 5. -/
def recA : SeqRec := ⟨ "A".toList, "CGNA".toList, "A|COUNT=5".toList, none⟩

/-- A fully-called record, fuzzily equal to `recA`, with numeric
    annotation 3. -/
def recB : SeqRec := ⟨ "B".toList, "CGGA".toList, "B|COUNT=3".toList, none⟩

/-- A fully-called record, fuzzily equal to `recA`, with numeric
    annotation 9. -/
def recC : SeqRec := ⟨ "C".toList, "CGGA".toList, "C|COUNT=9".toList, none⟩

/-- The default configuration: no unique/copy fields, no numeric tie-break
    field, no inner trimming, default delimiters. -/
def cfg0 : Config := ⟨none, none, none, none, none, false, defaultDelim⟩

/-- Configuration `cfg0` with `max_field` set to `COUNT`. -/
def cfgMax : Config :=
  ⟨none, none, none, some "COUNT".toList, none, false, defaultDelim⟩

/-- Configuration `cfg0` with `min_field` set to `COUNT`. -/
def cfgMin : Config :=
  ⟨none, none, none, none, some "COUNT".toList, false, defaultDelim⟩

/-- The uid of `recA` under `cfg0`-like configurations. -/
def uidA : UID := ⟨ "CGNA".toList, none⟩

/-- The uid of `recB` under `cfg0`-like configurations. -/
def uidB : UID := ⟨ "CGGA".toList, none⟩

/-- A one-member group holding `recA` with one ambiguous character. -/
def entryA : UniqEntry := ⟨recA, 1, 1, []⟩

/-- A representative whose header carries the copy field `F`. -/
def recF : SeqRec := ⟨ "A".toList, "CGGA".toList, "A|F=x".toList, none⟩

/-- Configuration `cfg0` with copy field `F` aggregated by the `set` action. -/
def cfgCopy : Config :=
  ⟨none, some ["F".toList], some ["set".toList], none, none, false,
    defaultDelim⟩

/-- A three-member group with collected `F` values `x`, `x`, `y`. -/
def entryF : UniqEntry := ⟨recF, 3, 0, [[[ 'x' ], [ 'x' ], [ 'y' ]]]⟩

/-- The parsed annotation map of `recF`'s header. -/
def annF : AnnotationMap := [(idKey, [[ 'A' ]]), ([ 'F' ], [[ 'x' ]])]

section AssocLemmas

variable {κ α : Type} [DecidableEq κ]

theorem alGet_nil (k : κ) : alGet ([] : List (κ × α)) k = none := rfl

theorem alGet_cons (p : κ × α) (t : List (κ × α)) (k : κ) :
    alGet (p :: t) k = if p.1 = k then some p.2 else alGet t k := rfl

theorem alSet_nil (k : κ) (v : α) : alSet ([] : List (κ × α)) k v = [(k, v)] :=
  rfl

theorem alSet_cons (p : κ × α) (t : List (κ × α)) (k : κ) (v : α) :
    alSet (p :: t) k v = if p.1 = k then (k, v) :: t else p :: alSet t k v :=
  rfl

theorem alErase_nil (k : κ) : alErase ([] : List (κ × α)) k = [] := rfl

theorem alErase_cons (p : κ × α) (t : List (κ × α)) (k : κ) :
    alErase (p :: t) k = if p.1 = k then t else p :: alErase t k := rfl

theorem alGet_alSet_self (u : List (κ × α)) (k : κ) (v : α) :
    alGet (alSet u k v) k = some v := by
  induction u with
  | nil => simp [alGet_nil, alGet_cons, alSet_nil]
  | cons p t ih =>
    by_cases h : p.1 = k
    · simp [alSet_cons, alGet_cons, h]
    · simp [alSet_cons, alGet_cons, h, ih]

theorem alGet_alSet_ne (u : List (κ × α)) (k k' : κ) (v : α) (h : k' ≠ k) :
    alGet (alSet u k v) k' = alGet u k' := by
  have h2 : ¬k = k' := fun e => h e.symm
  induction u with
  | nil => simp [alGet_nil, alGet_cons, alSet_nil, h2]
  | cons p t ih =>
    by_cases hp : p.1 = k
    · subst hp
      simp [alSet_cons, alGet_cons, h2]
    · simp [alSet_cons, alGet_cons, hp, ih]

theorem alGet_append_left (u w : List (κ × α)) (k : κ) (e : α)
    (h : alGet u k = some e) : alGet (u ++ w) k = some e := by
  induction u with
  | nil => simp [alGet_nil] at h
  | cons p t ih =>
    rw [List.cons_append, alGet_cons]
    rw [alGet_cons] at h
    by_cases hp : p.1 = k
    · rw [if_pos hp] at h ⊢
      exact h
    · rw [if_neg hp] at h ⊢
      exact ih h

theorem alGet_append_none (u w : List (κ × α)) (k : κ)
    (h : alGet u k = none) : alGet (u ++ w) k = alGet w k := by
  induction u with
  | nil => simp
  | cons p t ih =>
    rw [alGet_cons] at h
    by_cases hp : p.1 = k
    · rw [if_pos hp] at h
      exact absurd h (by simp)
    · rw [if_neg hp] at h
      rw [List.cons_append, alGet_cons, if_neg hp]
      exact ih h

theorem alSet_fresh_append (u : List (κ × α)) (k : κ) (v : α)
    (h : alGet u k = none) : alSet u k v = u ++ [(k, v)] := by
  induction u with
  | nil => simp [alSet_nil]
  | cons p t ih =>
    rw [alGet_cons] at h
    by_cases hp : p.1 = k
    · rw [if_pos hp] at h
      exact absurd h (by simp)
    · rw [if_neg hp] at h
      rw [alSet_cons, if_neg hp, List.cons_append, ih h]

theorem alGet_mem (u : List (κ × α)) (k : κ) (e : α)
    (h : alGet u k = some e) : (k, e) ∈ u := by
  induction u with
  | nil => simp [alGet_nil] at h
  | cons p t ih =>
    rw [alGet_cons] at h
    by_cases hp : p.1 = k
    · rw [if_pos hp] at h
      obtain ⟨k1, v1⟩ := p
      cases hp
      cases h
      exact List.mem_cons_self _ _
    · rw [if_neg hp] at h
      exact List.mem_cons_of_mem _ (ih h)

theorem alSet_mem (u : List (κ × α)) (k : κ) (v : α) (p : κ × α)
    (h : p ∈ alSet u k v) : p ∈ u ∨ p = (k, v) := by
  induction u with
  | nil =>
    rw [alSet_nil] at h
    exact Or.inr (List.mem_singleton.1 h)
  | cons q t ih =>
    rw [alSet_cons] at h
    by_cases hq : q.1 = k
    · rw [if_pos hq] at h
      rcases List.mem_cons.1 h with h1 | h1
      · exact Or.inr h1
      · exact Or.inl (List.mem_cons_of_mem _ h1)
    · rw [if_neg hq] at h
      rcases List.mem_cons.1 h with h1 | h1
      · exact Or.inl (h1 ▸ List.mem_cons_self _ _)
      · rcases ih h1 with h2 | h2
        · exact Or.inl (List.mem_cons_of_mem _ h2)
        · exact Or.inr h2

theorem alSet_split (u : List (κ × α)) (k : κ) (e v : α)
    (h : alGet u k = some e) :
    ∃ l1 l2, u = l1 ++ (k, e) :: l2 ∧ (∀ q ∈ l1, q.1 ≠ k) ∧
      alSet u k v = l1 ++ (k, v) :: l2 := by
  induction u with
  | nil => simp [alGet_nil] at h
  | cons p t ih =>
    rw [alGet_cons] at h
    by_cases hp : p.1 = k
    · rw [if_pos hp] at h
      obtain ⟨k1, v1⟩ := p
      cases hp
      cases h
      exact ⟨[], t, by simp, by simp, by simp [alSet_cons]⟩
    · rw [if_neg hp] at h
      obtain ⟨l1, l2, h1, h2, h3⟩ := ih h
      refine ⟨p :: l1, l2, by simp [h1], ?_,
        by rw [alSet_cons, if_neg hp, h3]; simp⟩
      intro q hq
      rcases List.mem_cons.1 hq with h4 | h4
      · exact h4 ▸ hp
      · exact h2 q h4

theorem alErase_append_fresh (u w : List (κ × α)) (k : κ)
    (h : ∀ q ∈ w, q.1 ≠ k) : alErase (u ++ w) k = alErase u k ++ w := by
  induction u with
  | nil =>
    induction w with
    | nil => simp [alErase_nil]
    | cons q t ih =>
      simp only [List.nil_append, alErase_cons, alErase_nil] at *
      rw [if_neg (h q (List.mem_cons_self _ _)),
        ih (fun q hq => h q (List.mem_cons_of_mem _ hq))]
  | cons p t ih =>
    by_cases hp : p.1 = k
    · simp [alErase_cons, hp]
    · simp [alErase_cons, hp, ih]

theorem foldl_alSet_fresh (pairs : List (κ × α)) (acc : List (κ × α))
    (hnd : (pairs.map Prod.fst).Nodup)
    (hfresh : ∀ p ∈ pairs, alGet acc p.1 = none) :
    pairs.foldl (fun m p => alSet m p.1 p.2) acc = acc ++ pairs := by
  induction pairs generalizing acc with
  | nil => simp
  | cons p t ih =>
    have hset : alSet acc p.1 p.2 = acc ++ [p] := by
      rw [alSet_fresh_append _ _ _ (hfresh p (List.mem_cons_self _ _))]
    have hnd' : (t.map Prod.fst).Nodup := (List.nodup_cons.1 hnd).2
    have hne : ∀ q ∈ t, q.1 ≠ p.1 := by
      intro q hq he
      exact (List.nodup_cons.1 hnd).1 (he ▸ List.mem_map_of_mem Prod.fst hq)
    have hfresh' : ∀ q ∈ t, alGet (acc ++ [p]) q.1 = none := by
      intro q hq
      rw [alGet_append_none _ _ _ (hfresh q (List.mem_cons_of_mem _ hq)),
        alGet_cons, if_neg (fun e => hne q hq e.symm)]
      exact alGet_nil _
    calc (p :: t).foldl (fun m q => alSet m q.1 q.2) acc
        = t.foldl (fun m q => alSet m q.1 q.2) (acc ++ [p]) := by
          simp [hset]
      _ = (acc ++ [p]) ++ t := ih (acc ++ [p]) hnd' hfresh'
      _ = acc ++ p :: t := by simp

end AssocLemmas

theorem splitOnChar_ne_nil (c : Char) (s : Str) : splitOnChar c s ≠ [] := by
  cases s with
  | nil => simp [splitOnChar]
  | cons a t =>
    simp only [splitOnChar]
    rcases h : splitOnChar c t with _ | ⟨h1, t1⟩
    · simp
    · by_cases hc : a = c <;> simp [hc]

theorem splitOnChar_no_sep (c : Char) (s : Str) (h : c ∉ s) :
    splitOnChar c s = [s] := by
  induction s with
  | nil => simp [splitOnChar]
  | cons a t ih =>
    have ha : a ≠ c := fun e => h (e ▸ List.mem_cons_self _ _)
    have ht : c ∉ t := fun e => h (List.mem_cons_of_mem _ e)
    simp [splitOnChar, ih ht, ha]

theorem splitOnChar_sep_cons (c : Char) (s t : Str) (h : c ∉ s) :
    splitOnChar c (s ++ c :: t) = s :: splitOnChar c t := by
  induction s with
  | nil =>
    simp only [List.nil_append, splitOnChar]
    rcases hs : splitOnChar c t with _ | ⟨h1, t1⟩
    · exact absurd hs (splitOnChar_ne_nil c t)
    · simp
  | cons a s' ih =>
    have ha : a ≠ c := fun e => h (e ▸ List.mem_cons_self _ _)
    have hs' : c ∉ s' := fun e => h (List.mem_cons_of_mem _ e)
    simp only [List.cons_append, splitOnChar, List.append_eq]
    rw [ih hs']
    simp [ha]

theorem joinSep_cons_cons (c : Char) (s x : Str) (t : List Str) :
    joinSep c (s :: x :: t) = s ++ c :: joinSep c (x :: t) := rfl

theorem joinSep_not_mem (c c' : Char) (parts : List Str) (hne : c' ≠ c)
    (H : ∀ s ∈ parts, c' ∉ s) : c' ∉ joinSep c parts := by
  induction parts with
  | nil => simp [joinSep]
  | cons s t ih =>
    cases t with
    | nil => exact H s (List.mem_cons_self _ _)
    | cons x t' =>
      rw [joinSep_cons_cons]
      intro hmem
      rcases List.mem_append.1 hmem with h1 | h1
      · exact H s (List.mem_cons_self _ _) h1
      · rcases List.mem_cons.1 h1 with h2 | h2
        · exact hne h2
        · exact ih (fun q hq => H q (List.mem_cons_of_mem _ hq)) h2

theorem splitOnChar_joinSep (c : Char) (parts : List Str)
    (hne : parts ≠ []) (H : ∀ s ∈ parts, c ∉ s) :
    splitOnChar c (joinSep c parts) = parts := by
  induction parts with
  | nil => exact absurd rfl hne
  | cons s t ih =>
    cases t with
    | nil => exact splitOnChar_no_sep c s (H s (List.mem_cons_self _ _))
    | cons x t' =>
      rw [joinSep_cons_cons,
        splitOnChar_sep_cons c s _ (H s (List.mem_cons_self _ _)),
        ih (by simp) (fun q hq => H q (List.mem_cons_of_mem _ hq))]

theorem splitOnceOnChar_append (c : Char) (s t : Str) (h : c ∉ s) :
    splitOnceOnChar c (s ++ c :: t) = some (s, t) := by
  induction s with
  | nil => simp [splitOnceOnChar]
  | cons a s' ih =>
    have ha : a ≠ c := fun e => h (e ▸ List.mem_cons_self _ _)
    have hs' : c ∉ s' := fun e => h (List.mem_cons_of_mem _ e)
    simp [splitOnceOnChar, ha, ih hs']

theorem optMap_map_self {α β : Type} (f : α → Option β) (h : β → α)
    (l : List β) (H : ∀ p ∈ l, f (h p) = some p) :
    optMap f (l.map h) = some l := by
  induction l with
  | nil => simp [optMap]
  | cons p t ih =>
    simp only [List.map_cons, optMap, H p (List.mem_cons_self _ _),
      ih (fun q hq => H q (List.mem_cons_of_mem _ hq))]

theorem mergeAnn_fresh (a b : AnnotationMap)
    (hfresh : ∀ p ∈ b, alGet a p.1 = none ∧ p.1 ≠ idKey)
    (hnd : (b.map Prod.fst).Nodup) : mergeAnn a b false = a ++ b := by
  induction b generalizing a with
  | nil => simp [mergeAnn]
  | cons p t ih =>
    have h1 := hfresh p (List.mem_cons_self _ _)
    have hne : ∀ q ∈ t, q.1 ≠ p.1 := by
      intro q hq he
      exact (List.nodup_cons.1 hnd).1 (he ▸ List.mem_map_of_mem Prod.fst hq)
    have hfresh' : ∀ q ∈ t, alGet (a ++ [p]) q.1 = none ∧ q.1 ≠ idKey := by
      intro q hq
      refine ⟨?_, (hfresh q (List.mem_cons_of_mem _ hq)).2⟩
      rw [alGet_append_none _ _ _ (hfresh q (List.mem_cons_of_mem _ hq)).1,
        alGet_cons, if_neg (Ne.symm (hne q hq))]
      exact alGet_nil _
    have : mergeAnn a (p :: t) false = mergeAnn (a ++ [p]) t false := by
      simp only [mergeAnn, List.foldl_cons, h1.2, if_false, h1.1]
    rw [this, ih (a ++ [p]) hfresh' (List.nodup_cons.1 hnd).2]
    simp

/-- Claim C5, counterexample: with a delimiter tuple whose field separator
    equals the key-value separator, a map with valid names and values does
    not survive the flatten/parse round trip, so the law does not hold for
    every delimiter tuple. -/
theorem c5_counterexample :
    validMap badDelim exMap5 = true ∧
      parseAnn badDelim (flattenAnn badDelim exMap5) ≠ some exMap5 := by
  decide

/-- Claim C5 (amended): for every annotation map with valid field names and
    values and every delimiter tuple whose field separator differs from the
    key-value and value-list separators, parsing the flattened serialization
    returns the original map. -/
theorem c5_roundtrip (d : Delim) (m : AnnotationMap)
    (hv : validMap d m = true) (h1 : d.fieldSep ≠ d.kvSep)
    (h2 : d.fieldSep ≠ d.valSep) :
    parseAnn d (flattenAnn d m) = some m := by
  match m with
  | [] => simp [validMap] at hv
  | (k, []) :: rest => simp [validMap] at hv
  | (k, _ :: _ :: _) :: rest => simp [validMap] at hv
  | (k, [idv]) :: rest =>
    simp only [validMap, Bool.and_eq_true, decide_eq_true_eq,
      List.all_eq_true] at hv
    obtain ⟨⟨⟨hk, hid⟩, hnd⟩, hall⟩ := hv
    subst hk
    have hprop : ∀ p ∈ rest, p.1 ≠ idKey ∧ p.1.map Char.toUpper = p.1 ∧
        d.fieldSep ∉ p.1 ∧ d.kvSep ∉ p.1 ∧ p.2 ≠ [] ∧
        ∀ v ∈ p.2, d.fieldSep ∉ v ∧ d.valSep ∉ v := by
      intro p hp
      obtain ⟨⟨⟨⟨⟨e1, e2⟩, e3⟩, e4⟩, e5⟩, e6⟩ := hall p hp
      exact ⟨e1, e2, e3, e4, e5, e6⟩
    have hgetid : alGet ((idKey, [idv]) :: rest) idKey = some [idv] := by
      simp [alGet]
    have hfilter :
        ((idKey, [idv]) :: rest).filter (fun p => !decide (p.1 = idKey)) =
          rest := by
      rw [List.filter_cons]
      simp only [decide_True, Bool.not_true, if_false]
      exact List.filter_eq_self.2 (fun p hp => by
        simp [(hprop p hp).1])
    have hflat : flattenAnn d ((idKey, [idv]) :: rest) =
        joinSep d.fieldSep (idv :: rest.map (fieldToken d)) := by
      simp only [flattenAnn, hgetid, hfilter]
    have hnosep : ∀ s ∈ idv :: rest.map (fieldToken d), d.fieldSep ∉ s := by
      intro s hs
      rcases List.mem_cons.1 hs with h3 | h3
      · exact h3 ▸ hid
      · obtain ⟨p, hp, hpe⟩ := List.mem_map.1 h3
        subst hpe
        obtain ⟨e1, e2, e3, e4, e5, e6⟩ := hprop p hp
        intro hmem
        rcases List.mem_append.1 hmem with h4 | h4
        · exact e3 h4
        · rcases List.mem_cons.1 h4 with h5 | h5
          · exact h1 h5
          · exact joinSep_not_mem _ _ _ h2 (fun v hv => (e6 v hv).1) h5
    have hsplit : splitOnChar d.fieldSep
        (joinSep d.fieldSep (idv :: rest.map (fieldToken d))) =
          idv :: rest.map (fieldToken d) :=
      splitOnChar_joinSep _ _ (by simp) hnosep
    have htok : ∀ p ∈ rest, parseToken d (fieldToken d p) = some p := by
      intro p hp
      obtain ⟨e1, e2, e3, e4, e5, e6⟩ := hprop p hp
      simp only [parseToken, fieldToken,
        splitOnceOnChar_append d.kvSep p.1 _ e4]
      rw [splitOnChar_joinSep d.valSep p.2 e5 (fun v hv => (e6 v hv).2), e2]
    have hmapm : optMap (parseToken d) (rest.map (fieldToken d)) =
        some rest := optMap_map_self _ _ _ htok
    have hfoldl : rest.foldl (fun m p => alSet m p.1 p.2)
        [(idKey, [idv])] = [(idKey, [idv])] ++ rest := by
      refine foldl_alSet_fresh rest _ hnd (fun p hp => ?_)
      rw [alGet_cons, if_neg (Ne.symm (hprop p hp).1)]
      exact alGet_nil _
    rw [hflat]
    simp only [parseAnn, hsplit, hmapm, hfoldl]
    simp

/-- Witness for `c5_roundtrip` at a concrete map and the default delimiter. -/
theorem c5_roundtrip_witness :
    parseAnn defaultDelim (flattenAnn defaultDelim exMapW) = some exMapW :=
  c5_roundtrip defaultDelim exMapW (by decide) (by decide) (by decide)

/-- Claim C9, counterexample: expanding field `F` of a header in which `F`
    precedes `G` puts the new fields `F1`, `F2` after `G`, at the end of the
    map, not at `F`'s original position. -/
theorem c9_counterexample :
    expandHeader defaultDelim '+' [[ 'F' ]] exMap9 =
      some [(idKey, [[ 's' ]]), ([ 'G' ], [[ 'x' ]]),
        ([ 'F', '1' ], [[ 'a' ]]), ([ 'F', '2' ], [[ 'b' ]])] ∧
    expandHeader defaultDelim '+' [[ 'F' ]] exMap9 ≠
      some [(idKey, [[ 's' ]]), ([ 'F', '1' ], [[ 'a' ]]),
        ([ 'F', '2' ], [[ 'b' ]]), ([ 'G' ], [[ 'x' ]])] := by
  decide

/-- Claim C9 (amended): expanding a named field splits its value text on the
    separator into N parts and replaces the field with N new fields named
    `FIELD1..FIELDN` holding one value each, the original field being
    removed; the new fields are appended at the end of the map (after all
    existing fields), not at the original field's position. -/
theorem c9_expand (d : Delim) (sep : Char) (f : Str) (m : AnnotationMap)
    (vs parts names : List Str)
    (hget : alGet m f = some vs)
    (hparts : parts = splitOnChar sep (joinSep d.valSep vs))
    (hnames : names = (List.range parts.length).map
      (fun i => f ++ renderNat (i + 1)))
    (hnd : names.Nodup)
    (hfresh : ∀ n ∈ names, alGet m n = none ∧ n ≠ idKey ∧ n ≠ f) :
    expandHeader d sep [f] m =
      some (alErase m f ++ names.zip (parts.map (fun p => [p]))) := by
  have hlen : names.length = (parts.map (fun p => ([p] : List Str))).length :=
    by simp [hnames]
  have hzfst : (names.zip (parts.map (fun p => ([p] : List Str)))).map
      Prod.fst = names :=
    List.map_fst_zip _ _ (le_of_eq hlen)
  have hmem : ∀ q ∈ names.zip (parts.map (fun p => ([p] : List Str))),
      q.1 ∈ names := by
    intro q hq
    exact (List.of_mem_zip hq).1
  have hmerge : mergeAnn m (names.zip (parts.map (fun p => [p]))) false =
      m ++ names.zip (parts.map (fun p => [p])) := by
    refine mergeAnn_fresh _ _ (fun q hq => ?_) (by rw [hzfst]; exact hnd)
    exact ⟨(hfresh q.1 (hmem q hq)).1, (hfresh q.1 (hmem q hq)).2.1⟩
  have herase : alErase (m ++ names.zip (parts.map (fun p => [p]))) f =
      alErase m f ++ names.zip (parts.map (fun p => [p])) :=
    alErase_append_fresh _ _ _
      (fun q hq => (hfresh q.1 (hmem q hq)).2.2)
  simp only [expandHeader, optFold, hget, hparts.symm, hnames.symm, hmerge,
    herase]

theorem stepRec_match_eq (cfg : Config) (n : Nat) (u : UniqDict)
    (kept : List SeqRec) (dups : List Str) (r : SeqRec) (uid m : UID)
    (e : UniqEntry) (cid : List (List Str)) (sw : Bool)
    (hac : ambigCount (effSeq cfg r) ≤ n)
    (huid : computeUID cfg r (effSeq cfg r) = some uid)
    (hcid : computeCID cfg r = some cid)
    (hfind : findUID uid u (decide (0 < n)) = some m)
    (hget : alGet u m = some e)
    (hle : ambigCount (effSeq cfg r) ≤ e.ambig)
    (hcmp : compareSwap cfg r e.rep = some sw) :
    stepRec cfg n (u, kept, dups) r =
      some (alSet u m
          ⟨if sw then r else e.rep, e.count + 1,
            if sw then ambigCount (effSeq cfg r) else e.ambig,
            List.zipWith (fun x y => x ++ y) e.copies cid⟩,
        kept, dups ++ [if sw then e.rep.id else r.id]) := by
  have hnlt : ¬n < ambigCount (effSeq cfg r) := not_lt.2 hac
  simp only [stepRec, hnlt, if_false, huid, hcid, hfind, hget, hle, if_true,
    hcmp]
  cases sw <;> simp

/-- Claim C6: when `min_field` is set (and `max_field` is not), a duplicate
    whose ambiguous count is at most the current representative's replaces
    the representative exactly when its parsed `min_field` value is strictly
    greater than the representative's — the same greater-than comparison as
    the `max_field` branch. -/
theorem c6_minfield (cfg : Config) (n : Nat) (u : UniqDict)
    (kept : List SeqRec) (dups : List Str) (r : SeqRec) (f : Str)
    (uid m : UID) (e : UniqEntry) (cid : List (List Str)) (a b : ℚ)
    (hmax : cfg.maxField = none) (hmin : cfg.minField = some f)
    (ha : getFieldNum cfg.delim f r.description = some a)
    (hb : getFieldNum cfg.delim f e.rep.description = some b)
    (hac : ambigCount (effSeq cfg r) ≤ n)
    (huid : computeUID cfg r (effSeq cfg r) = some uid)
    (hcid : computeCID cfg r = some cid)
    (hfind : findUID uid u (decide (0 < n)) = some m)
    (hget : alGet u m = some e)
    (hle : ambigCount (effSeq cfg r) ≤ e.ambig) :
    stepRec cfg n (u, kept, dups) r =
      some (alSet u m
          ⟨if b < a then r else e.rep, e.count + 1,
            if b < a then ambigCount (effSeq cfg r) else e.ambig,
            List.zipWith (fun x y => x ++ y) e.copies cid⟩,
        kept, dups ++ [if b < a then e.rep.id else r.id]) := by
  have hcmp : compareSwap cfg r e.rep = some (decide (b < a)) := by
    simp only [compareSwap, hmax, hmin, ha, hb]
  rw [stepRec_match_eq cfg n u kept dups r uid m e cid (decide (b < a))
    hac huid hcid hfind hget hle hcmp]
  simp only [decide_eq_true_eq]

/-- Witness for `c6_minfield`: with `min_field = COUNT`, an incoming
    duplicate with value 9 replaces a representative with value 5 (the
    greater value wins). -/
theorem c6_minfield_witness :
    stepRec cfgMin 1 ([(uidA, entryA)], [], []) recC =
      some (alSet [(uidA, entryA)] uidA
          ⟨if (5 : ℚ) < 9 then recC else entryA.rep, entryA.count + 1,
            if (5 : ℚ) < 9 then ambigCount (effSeq cfgMin recC)
              else entryA.ambig,
            List.zipWith (fun x y => x ++ y) entryA.copies []⟩,
        [], [] ++ [if (5 : ℚ) < 9 then entryA.rep.id else recC.id]) :=
  c6_minfield cfgMin 1 [(uidA, entryA)] [] [] recC "COUNT".toList uidB uidA
    entryA [] 9 5 (by decide) (by decide) (by decide) (by decide)
    (by decide) (by decide) (by decide) (by decide) (by decide) (by decide)

/-- Claim C1, counterexample: a `findUniqueSeq` call with budget 1 and
    `max_field = COUNT` folds the ambiguity-free record `recB` (field value
    3) into the group represented by `recA` (one ambiguous character, field
    value 5); the group's duplicate count becomes 2 but its representative
    remains `recA` — the strictly lower ambiguous count did not dominate the
    tie-break. -/
theorem c1_counterexample :
    (findUniqueSeq cfgMax 1 [] [recA, recB]).map
        (fun res => res.1.map (fun p => (p.2.rep.id, p.2.count, p.2.ambig))) =
      some [([ 'A' ], 2, 1)] ∧
    ambigCount (effSeq cfgMax recA) = 1 ∧
    ambigCount (effSeq cfgMax recB) = 0 := by
  decide

/-- Claim C1 (amended): for a group whose current representative has
    ambiguous-character count 1, when a later record with a matching uid and
    ambiguous-character count 0 is folded in, that record becomes the
    group's representative exactly when the configured comparison
    (`max_field`/`min_field` strictly-greater field value, else
    strictly-greater mean quality, else never) favors it; the lower
    ambiguous count only makes the replacement admissible. -/
theorem c1_tiebreak (cfg : Config) (n : Nat) (u : UniqDict)
    (kept : List SeqRec) (dups : List Str) (r : SeqRec) (uid m : UID)
    (e : UniqEntry) (cid : List (List Str)) (sw : Bool)
    (he1 : e.ambig = 1) (hac0 : ambigCount (effSeq cfg r) = 0)
    (hacn : ambigCount (effSeq cfg r) ≤ n)
    (huid : computeUID cfg r (effSeq cfg r) = some uid)
    (hcid : computeCID cfg r = some cid)
    (hfind : findUID uid u (decide (0 < n)) = some m)
    (hget : alGet u m = some e)
    (hcmp : compareSwap cfg r e.rep = some sw) :
    ∃ e', stepRec cfg n (u, kept, dups) r =
        some (alSet u m e', kept, dups ++ [if sw then e.rep.id else r.id]) ∧
      e'.rep = (if sw then r else e.rep) ∧ e'.count = e.count + 1 := by
  have hle : ambigCount (effSeq cfg r) ≤ e.ambig := by
    rw [hac0, he1]; exact Nat.zero_le 1
  refine ⟨⟨if sw then r else e.rep, e.count + 1,
    if sw then ambigCount (effSeq cfg r) else e.ambig,
    List.zipWith (fun x y => x ++ y) e.copies cid⟩, ?_, rfl, rfl⟩
  exact stepRec_match_eq cfg n u kept dups r uid m e cid sw hacn huid hcid
    hfind hget hle hcmp

/-- Witness for `c1_tiebreak` at the concrete counterexample scenario. -/
theorem c1_tiebreak_witness :
    ∃ e', stepRec cfgMax 1 ([(uidA, entryA)], [], []) recB =
        some (alSet [(uidA, entryA)] uidA e', [], [recB.id]) ∧
      e'.rep = entryA.rep ∧ e'.count = entryA.count + 1 :=
  c1_tiebreak cfgMax 1 [(uidA, entryA)] [] [] recB uidB uidA entryA [] false
    (by decide) (by decide) (by decide) (by decide) (by decide) (by decide)
    (by decide) (by decide)

theorem stepRec_cases (cfg : Config) (n : Nat) (u : UniqDict)
    (kept : List SeqRec) (dups : List Str) (r : SeqRec)
    (u' : UniqDict) (kept' : List SeqRec) (dups' : List Str)
    (h : stepRec cfg n (u, kept, dups) r = some (u', kept', dups')) :
    (n < ambigCount (effSeq cfg r) ∧ u' = u ∧ kept' = kept ++ [r] ∧
      dups' = dups)
    ∨ (ambigCount (effSeq cfg r) ≤ n ∧ kept' = kept ∧
       ((∃ uid cid,
           u' = u ++ [(uid, ⟨r, 1, ambigCount (effSeq cfg r), cid⟩)] ∧
           dups' = dups)
        ∨ (∃ m e e', alGet u m = some e ∧ u' = alSet u m e' ∧
             e'.count = e.count + 1 ∧
             ((e'.rep = e.rep ∧ e'.ambig = e.ambig ∧
                dups' = dups ++ [r.id])
              ∨ (e'.rep = r ∧ e'.ambig = ambigCount (effSeq cfg r) ∧
                 ambigCount (effSeq cfg r) ≤ e.ambig ∧
                 dups' = dups ++ [e.rep.id]))))) := by
  simp only [stepRec] at h
  by_cases hlt : n < ambigCount (effSeq cfg r)
  · rw [if_pos hlt] at h
    simp only [Option.some.injEq, Prod.mk.injEq] at h
    exact Or.inl ⟨hlt, h.1.symm, h.2.1.symm, h.2.2.symm⟩
  · rw [if_neg hlt] at h
    refine Or.inr ⟨not_lt.1 hlt, ?_⟩
    rcases huid : computeUID cfg r (effSeq cfg r) with _ | uid <;>
      rcases hcid : computeCID cfg r with _ | cid <;>
        simp only [huid, hcid] at h <;>
          try exact Option.noConfusion h
    rcases hfind : findUID uid u (decide (0 < n)) with _ | m <;>
      simp only [hfind] at h
    · simp only [Option.some.injEq, Prod.mk.injEq] at h
      exact ⟨h.2.1.symm, Or.inl ⟨uid, cid, h.1.symm, h.2.2.symm⟩⟩
    · rcases hget : alGet u m with _ | e <;> simp only [hget] at h
      · exact Option.noConfusion h
      · by_cases hle : ambigCount (effSeq cfg r) ≤ e.ambig
        · rw [if_pos hle] at h
          rcases hcmp : compareSwap cfg r e.rep with _ | sw <;>
            simp only [hcmp] at h
          · exact Option.noConfusion h
          · cases sw with
            | true =>
              rw [if_pos rfl] at h
              simp only [Option.some.injEq, Prod.mk.injEq] at h
              refine ⟨h.2.1.symm, Or.inr ⟨m, e, _, hget, h.1.symm, rfl,
                Or.inr ⟨rfl, rfl, hle, h.2.2.symm⟩⟩⟩
            | false =>
              rw [if_neg (by simp)] at h
              simp only [Option.some.injEq, Prod.mk.injEq] at h
              refine ⟨h.2.1.symm, Or.inr ⟨m, e, _, hget, h.1.symm, rfl,
                Or.inl ⟨rfl, rfl, h.2.2.symm⟩⟩⟩
        · rw [if_neg hle] at h
          simp only [Option.some.injEq, Prod.mk.injEq] at h
          refine ⟨h.2.1.symm, Or.inr ⟨m, e, _, hget, h.1.symm, rfl,
            Or.inl ⟨rfl, rfl, h.2.2.symm⟩⟩⟩

theorem stepRec_spec_one (cfg : Config) (n : Nat) (u : UniqDict)
    (kept : List SeqRec) (dups : List Str) (r : SeqRec)
    (u' : UniqDict) (kept' : List SeqRec) (dups' : List Str)
    (h : stepRec cfg n (u, kept, dups) r = some (u', kept', dups')) :
    kept' = kept ++ (if n < ambigCount (effSeq cfg r) then [r] else [])
    ∧ repIds u' + (dups' : Multiset Str) =
        repIds u + (dups : Multiset Str) +
          (if ambigCount (effSeq cfg r) ≤ n then {r.id} else 0)
    ∧ (GroupInv cfg u → GroupInv cfg u')
    ∧ (∀ uid e, alGet u uid = some e →
        ∃ e', alGet u' uid = some e' ∧ e'.ambig ≤ e.ambig) := by
  rcases stepRec_cases cfg n u kept dups r u' kept' dups' h with
    ⟨hlt, hu, hk, hd⟩ | ⟨hle, hk, hrest⟩
  · subst hu; subst hk; subst hd
    refine ⟨by rw [if_pos hlt], ?_, fun hi => hi,
      fun uid e hg => ⟨e, hg, le_refl _⟩⟩
    rw [if_neg (not_le.2 hlt), add_zero]
  · subst hk
    refine ⟨by rw [if_neg (not_lt.2 hle), List.append_nil], ?_⟩
    rcases hrest with ⟨uid, cid, hu, hd⟩ | ⟨m, e, e', hget, hu, hc, hsub⟩
    · subst hu; subst hd
      refine ⟨?_, ?_, ?_⟩
      · rw [if_pos hle]
        simp only [repIds, List.map_append, List.map_cons, List.map_nil,
          ← Multiset.coe_add, ← Multiset.cons_coe, ← Multiset.singleton_add,
          Multiset.coe_nil]
        abel
      · intro hi p hp
        rcases List.mem_append.1 hp with h1 | h1
        · exact hi p h1
        · rw [List.mem_singleton.1 h1]
      · intro w e hg
        exact ⟨e, alGet_append_left _ _ _ _ hg, le_refl _⟩
    · have hambLe : e'.ambig ≤ e.ambig := by
        rcases hsub with ⟨_, h2, _⟩ | ⟨_, h2, h3, _⟩
        · rw [h2]
        · rw [h2]; exact h3
      obtain ⟨l1, l2, hu1, hl1, hu2⟩ := alSet_split u m e e' hget
      refine ⟨?_, ?_, ?_⟩
      · rw [if_pos hle, hu, hu2, hu1]
        rcases hsub with ⟨hrep, _, hd⟩ | ⟨hrep, _, _, hd⟩ <;> subst hd <;>
          simp only [repIds, List.map_append, List.map_cons, List.map_nil,
            hrep, ← Multiset.coe_add, ← Multiset.cons_coe,
            ← Multiset.singleton_add, Multiset.coe_nil] <;> abel
      · intro hi p hp
        rw [hu] at hp
        rcases alSet_mem u m e' p hp with h1 | h1
        · exact hi p h1
        · subst h1
          show e'.ambig = ambigCount (effSeq cfg e'.rep)
          rcases hsub with ⟨hrep, hamb, _⟩ | ⟨hrep, hamb, _, _⟩
          · rw [hrep, hamb]
            exact hi (m, e) (alGet_mem u m e hget)
          · rw [hrep, hamb]
      · intro w e0 hg
        by_cases hw : w = m
        · subst hw
          rw [hget] at hg
          cases hg
          exact ⟨e', by rw [hu]; exact alGet_alSet_self u w e', hambLe⟩
        · refine ⟨e0, ?_, le_refl _⟩
          rw [hu, alGet_alSet_ne u m w e' hw]
          exact hg

theorem optFold_stepRec_spec (cfg : Config) (n : Nat) (l : List SeqRec) :
    ∀ (u : UniqDict) (kept : List SeqRec) (dups : List Str)
      (u' : UniqDict) (kept' : List SeqRec) (dups' : List Str),
      optFold (stepRec cfg n) (u, kept, dups) l = some (u', kept', dups') →
      kept' = kept ++
        l.filter (fun r => decide (n < ambigCount (effSeq cfg r)))
      ∧ repIds u' + (dups' : Multiset Str) =
          repIds u + (dups : Multiset Str) +
            ↑((l.filter (fun r =>
              decide (ambigCount (effSeq cfg r) ≤ n))).map (fun r => r.id))
      ∧ (GroupInv cfg u → GroupInv cfg u')
      ∧ (∀ uid e, alGet u uid = some e →
          ∃ e', alGet u' uid = some e' ∧ e'.ambig ≤ e.ambig) := by
  induction l with
  | nil =>
    intro u kept dups u' kept' dups' h
    simp only [optFold, Option.some.injEq, Prod.mk.injEq] at h
    obtain ⟨h1, h2, h3⟩ := h
    subst h1; subst h2; subst h3
    exact ⟨by simp, by simp, fun hi => hi,
      fun uid e hg => ⟨e, hg, le_refl _⟩⟩
  | cons r t ih =>
    intro u kept dups u' kept' dups' h
    simp only [optFold] at h
    rcases hstep : stepRec cfg n (u, kept, dups) r with _ | b <;>
      simp only [hstep] at h
    · exact Option.noConfusion h
    obtain ⟨u1, k1, d1⟩ := b
    obtain ⟨hk1, hm1, hi1, hmo1⟩ :=
      stepRec_spec_one cfg n u kept dups r u1 k1 d1 hstep
    obtain ⟨hk2, hm2, hi2, hmo2⟩ := ih u1 k1 d1 u' kept' dups' h
    refine ⟨?_, ?_, fun hi => hi2 (hi1 hi), ?_⟩
    · rw [hk2, hk1]
      by_cases hlt : n < ambigCount (effSeq cfg r)
      · rw [if_pos hlt, List.filter_cons_of_pos (by simp [hlt]),
          List.append_assoc, List.singleton_append]
      · rw [if_neg hlt, List.filter_cons_of_neg (by simp [hlt]),
          List.append_nil]
    · rw [hm2, hm1]
      by_cases hle2 : ambigCount (effSeq cfg r) ≤ n
      · rw [if_pos hle2, List.filter_cons_of_pos (by simp [hle2]),
          List.map_cons, ← Multiset.cons_coe, ← Multiset.singleton_add]
        abel
      · rw [if_neg hle2, List.filter_cons_of_neg (by simp [hle2]), add_zero]
    · intro uid e hg
      obtain ⟨e1, hg1, hle1⟩ := hmo1 uid e hg
      obtain ⟨e2, hg2, hle2⟩ := hmo2 uid e1 hg1
      exact ⟨e2, hg2, le_trans hle2 hle1⟩

theorem findUniqueSeq_spec (cfg : Config) (n : Nat) (u : UniqDict)
    (sk : List SeqRec) (u' : UniqDict) (sk' : List SeqRec) (dk' : List Str)
    (h : findUniqueSeq cfg n u sk = some (u', sk', dk')) :
    sk' = sk.filter (fun r => decide (n < ambigCount (effSeq cfg r)))
    ∧ repIds u' + (dk' : Multiset Str) =
        repIds u + ↑((sk.filter (fun r =>
          decide (ambigCount (effSeq cfg r) ≤ n))).map (fun r => r.id))
    ∧ (GroupInv cfg u → GroupInv cfg u')
    ∧ (∀ uid e, alGet u uid = some e →
        ∃ e', alGet u' uid = some e' ∧ e'.ambig ≤ e.ambig) := by
  obtain ⟨h1, h2, h3, h4⟩ :=
    optFold_stepRec_spec cfg n sk u [] [] u' sk' dk' h
  refine ⟨by simpa using h1, ?_, h3, h4⟩
  rw [h2]
  simp

theorem passedBy_cons (n : Nat) (rest : List Nat) (a : Nat) :
    passedBy (n :: rest) a = (decide (a ≤ n) || passedBy rest a) := by
  simp [passedBy, List.any_cons]

theorem not_le_decide (a n : Nat) : (!decide (a ≤ n)) = decide (n < a) := by
  by_cases h : a ≤ n
  · have h2 : ¬n < a := not_lt.2 h
    simp [h, h2]
  · have h2 : n < a := Nat.lt_of_not_le h
    simp [h, h2]

theorem passedBy_range (k a : Nat) :
    passedBy (List.range (k + 1)) a = decide (a ≤ k) := by
  by_cases h : a ≤ k
  · have h1 : passedBy (List.range (k + 1)) a = true := by
      rw [passedBy, List.any_eq_true]
      exact ⟨k, List.mem_range.2 (Nat.lt_succ_self k), by simp [h]⟩
    simp [h1, h]
  · have h1 : passedBy (List.range (k + 1)) a = false := by
      rw [passedBy]
      rw [List.any_eq_false]
      intro x hx
      have hax : ¬a ≤ x :=
        fun hax => h (le_trans hax (Nat.lt_succ_iff.1 (List.mem_range.1 hx)))
      simp [hax]
    simp [h1, h]

theorem filter_split_perm {α : Type} (q w : α → Bool) (l : List α) :
    (l.filter q ++ (l.filter (fun x => !q x)).filter w).Perm
      (l.filter (fun x => q x || w x)) := by
  induction l with
  | nil => simp
  | cons x t ih =>
    by_cases hq : q x = true
    · have e1 : List.filter q (x :: t) = x :: List.filter q t :=
        List.filter_cons_of_pos hq
      have e2 : List.filter (fun y => !q y) (x :: t) =
          List.filter (fun y => !q y) t :=
        List.filter_cons_of_neg (by simp [hq])
      have e3 : List.filter (fun y => q y || w y) (x :: t) =
          x :: List.filter (fun y => q y || w y) t :=
        List.filter_cons_of_pos (by simp [hq])
      rw [e1, e2, e3, List.cons_append]
      exact ih.cons x
    · have hq' : q x = false := by simpa using hq
      have e1 : List.filter q (x :: t) = List.filter q t :=
        List.filter_cons_of_neg (by simp [hq'])
      have e2 : List.filter (fun y => !q y) (x :: t) =
          x :: List.filter (fun y => !q y) t :=
        List.filter_cons_of_pos (by simp [hq'])
      by_cases hw : w x = true
      · have e3 : List.filter w (x :: List.filter (fun y => !q y) t) =
            x :: List.filter w (List.filter (fun y => !q y) t) :=
          List.filter_cons_of_pos hw
        have e4 : List.filter (fun y => q y || w y) (x :: t) =
            x :: List.filter (fun y => q y || w y) t :=
          List.filter_cons_of_pos (by simp [hw])
        rw [e1, e2, e3, e4]
        exact List.Perm.trans List.perm_middle (ih.cons x)
      · have hw' : w x = false := by simpa using hw
        have e3 : List.filter w (x :: List.filter (fun y => !q y) t) =
            List.filter w (List.filter (fun y => !q y) t) :=
          List.filter_cons_of_neg (by simp [hw'])
        have e4 : List.filter (fun y => q y || w y) (x :: t) =
            List.filter (fun y => q y || w y) t :=
          List.filter_cons_of_neg (by simp [hq', hw'])
        rw [e1, e2, e3, e4]
        exact ih

theorem runPasses_spec (cfg : Config) (budgets : List Nat) :
    ∀ (u : UniqDict) (p : List SeqRec) (dk : List Str)
      (res : UniqDict × List SeqRec × List Str) (c : Nat),
      runPasses cfg budgets u p dk = some (res, c) →
      res.2.1 = p.filter
        (fun r => !passedBy budgets (ambigCount (effSeq cfg r)))
      ∧ repIds res.1 + (res.2.2 : Multiset Str) =
          repIds u + (dk : Multiset Str) +
            ↑((p.filter (fun r =>
              passedBy budgets (ambigCount (effSeq cfg r)))).map
                (fun r => r.id))
      ∧ c ≤ budgets.length
      ∧ (GroupInv cfg u → GroupInv cfg res.1)
      ∧ (∀ uid e, alGet u uid = some e →
          ∃ e', alGet res.1 uid = some e' ∧ e'.ambig ≤ e.ambig) := by
  induction budgets with
  | nil =>
    intro u p dk res c h
    simp only [runPasses, Option.some.injEq, Prod.mk.injEq] at h
    obtain ⟨hres, hc⟩ := h
    subst hres; subst hc
    refine ⟨?_, ?_, Nat.le_refl 0, fun hi => hi,
      fun uid e hg => ⟨e, hg, le_refl _⟩⟩
    · show p = p.filter (fun r => !passedBy [] (ambigCount (effSeq cfg r)))
      rw [show (fun r => !passedBy [] (ambigCount (effSeq cfg r))) =
        (fun _ => true) from rfl]
      exact (List.filter_true p).symm
    · show repIds u + (dk : Multiset Str) = _
      rw [show (fun r => passedBy [] (ambigCount (effSeq cfg r))) =
        (fun _ => false) from rfl]
      simp
  | cons n rest ih =>
    intro u p dk res c h
    simp only [runPasses] at h
    rcases hpass : findUniqueSeq cfg n u p with _ | trip <;>
      simp only [hpass] at h
    · exact Option.noConfusion h
    obtain ⟨u2, sk2, dk2⟩ := trip
    obtain ⟨hsk2, hm2, hi2, hmo2⟩ :=
      findUniqueSeq_spec cfg n u p u2 sk2 dk2 hpass
    by_cases hemp : sk2.isEmpty
    · rw [if_pos hemp] at h
      simp only [Option.some.injEq, Prod.mk.injEq] at h
      obtain ⟨hres, hc⟩ := h
      subst hres; subst hc
      have hnil : sk2 = [] := List.isEmpty_iff.1 hemp
      have hall : ∀ r ∈ p, ambigCount (effSeq cfg r) ≤ n := by
        intro r hr
        by_contra hcon
        have hmem : r ∈ sk2 := by
          rw [hsk2]
          exact List.mem_filter.2 ⟨hr, by simp [Nat.lt_of_not_le hcon]⟩
        rw [hnil] at hmem
        exact absurd hmem (List.not_mem_nil r)
      refine ⟨?_, ?_, Nat.succ_le_succ (Nat.zero_le _), hi2, hmo2⟩
      · show sk2 = _
        rw [hnil]
        symm
        rw [List.filter_eq_nil_iff]
        intro r hr
        rw [passedBy_cons]
        simp [hall r hr]
      · show repIds u2 + ((dk ++ dk2 : List Str) : Multiset Str) = _
        have hfc : p.filter (fun r =>
            passedBy (n :: rest) (ambigCount (effSeq cfg r))) =
          p.filter (fun r =>
            decide (ambigCount (effSeq cfg r) ≤ n)) := by
          refine List.filter_congr (fun r hr => ?_)
          rw [passedBy_cons]
          simp [hall r hr]
        rw [hfc, ← Multiset.coe_add]
        have h3 : repIds u2 + ((dk : Multiset Str) + (dk2 : Multiset Str)) =
            repIds u2 + (dk2 : Multiset Str) + (dk : Multiset Str) := by
          abel
        rw [h3, hm2]
        abel
    · rw [if_neg hemp] at h
      rcases hrec : runPasses cfg rest u2 sk2 (dk ++ dk2) with _ | pr <;>
        simp only [hrec] at h
      · exact Option.noConfusion h
      obtain ⟨res0, c0⟩ := pr
      simp only [Option.some.injEq, Prod.mk.injEq] at h
      obtain ⟨hres, hc⟩ := h
      obtain ⟨hp0, hm0, hc0, hi0, hmo0⟩ := ih u2 sk2 (dk ++ dk2) res0 c0 hrec
      have hres1 : res.1 = res0.1 := by rw [← hres]
      have hres21 : res.2.1 = res0.2.1 := by rw [← hres]
      have hres22 : res.2.2 = res0.2.2 := by rw [← hres]
      refine ⟨?_, ?_, ?_, fun hi => hres1 ▸ hi0 (hi2 hi), ?_⟩
      · rw [hres21, hp0, hsk2, List.filter_filter]
        refine List.filter_congr (fun r hr => ?_)
        rw [passedBy_cons, Bool.not_or, not_le_decide, Bool.and_comm]
      · have hperm : (((p.filter (fun r =>
              decide (ambigCount (effSeq cfg r) ≤ n))).map (fun r => r.id)) ++
            ((sk2.filter (fun r =>
              passedBy rest (ambigCount (effSeq cfg r)))).map
                (fun r => r.id))).Perm
            ((p.filter (fun r =>
              passedBy (n :: rest) (ambigCount (effSeq cfg r)))).map
                (fun r => r.id)) := by
          rw [hsk2, List.filter_filter, ← List.map_append]
          refine List.Perm.map _ ?_
          have hcg : p.filter (fun r =>
              passedBy rest (ambigCount (effSeq cfg r)) &&
                decide (n < ambigCount (effSeq cfg r))) =
            (p.filter (fun r =>
              !decide (ambigCount (effSeq cfg r) ≤ n))).filter
                (fun r => passedBy rest (ambigCount (effSeq cfg r))) := by
            rw [List.filter_filter]
            refine List.filter_congr (fun r hr => ?_)
            rw [not_le_decide, Bool.and_comm]
          have hcg2 : p.filter (fun r =>
              passedBy (n :: rest) (ambigCount (effSeq cfg r))) =
            p.filter (fun r => decide (ambigCount (effSeq cfg r) ≤ n) ||
              passedBy rest (ambigCount (effSeq cfg r))) := by
            refine List.filter_congr (fun r hr => ?_)
            rw [passedBy_cons]
          rw [hcg, hcg2]
          exact filter_split_perm _ _ p
        have hco : ((((p.filter (fun r =>
              decide (ambigCount (effSeq cfg r) ≤ n))).map (fun r => r.id)) ++
            ((sk2.filter (fun r =>
              passedBy rest (ambigCount (effSeq cfg r)))).map
                (fun r => r.id)) : List Str) : Multiset Str) =
            ↑((p.filter (fun r =>
              passedBy (n :: rest) (ambigCount (effSeq cfg r)))).map
                (fun r => r.id)) :=
          Multiset.coe_eq_coe.2 hperm
        rw [hres1, hres22, hm0, ← hco, ← Multiset.coe_add,
          ← Multiset.coe_add,
          add_comm (dk : Multiset Str) (dk2 : Multiset Str), ← add_assoc,
          hm2]
        abel
      · rw [← hc]
        exact Nat.succ_le_succ hc0
      · intro uid e hg
        obtain ⟨e1, hg1, hle1⟩ := hmo2 uid e hg
        obtain ⟨e2, hg2, hle2⟩ := hmo0 uid e1 hg1
        exact ⟨e2, by rw [hres1]; exact hg2, le_trans hle2 hle1⟩

/-- Claim C3: the engine's pass loop executes at most `maxMissing + 1`
    passes; in each pass with budget n exactly the still-pending records
    whose (optionally inner-trimmed) sequence has at most n ambiguous
    characters are removed from the pending list; and the records still
    pending after the final pass are exactly those with more than
    `maxMissing` ambiguous characters — the undetermined output. -/
theorem c3_termination (cfg : Config) (mm : Nat) (recs : List SeqRec)
    (res : UniqDict × List SeqRec × List Str) (c : Nat)
    (h : collapseRun cfg mm recs = some (res, c)) :
    c ≤ mm + 1
    ∧ res.2.1 = recs.filter
        (fun r => decide (mm < ambigCount (effSeq cfg r)))
    ∧ ∀ (n : Nat) (u : UniqDict) (sk : List SeqRec) (u' : UniqDict)
        (sk' : List SeqRec) (dk' : List Str),
        findUniqueSeq cfg n u sk = some (u', sk', dk') →
        sk' = sk.filter
          (fun r => decide (n < ambigCount (effSeq cfg r))) := by
  obtain ⟨hp, hm, hc, _, _⟩ :=
    runPasses_spec cfg (List.range (mm + 1)) [] recs [] res c h
  refine ⟨by simpa using hc, ?_, fun n u sk u' sk' dk' hh =>
    (findUniqueSeq_spec cfg n u sk u' sk' dk' hh).1⟩
  rw [hp]
  refine List.filter_congr (fun r hr => ?_)
  rw [passedBy_range, not_le_decide]

/-- Witness for `c3_termination` at a concrete two-record run. -/
theorem c3_termination_witness :
    (2 : Nat) ≤ 1 + 1 ∧
    ([] : List SeqRec) = [recA, recB].filter
      (fun r => decide (1 < ambigCount (effSeq cfg0 r))) := by
  have h := c3_termination cfg0 1 [recA, recB]
    ([(uidB, ⟨recB, 2, 0, []⟩)], [], [recA.id]) 2 (by decide)
  exact ⟨h.1, h.2.1⟩

/-- Claim C10: every group's stored ambiguous-character count equals its
    current representative's count after every operation (it is set from the
    representative at creation and rewritten only together with it, by a
    record whose count is no larger), and it never increases over the
    group's lifetime — stated for a single record step and for any run of
    passes from any intermediate state. -/
theorem c10_group_invariant (cfg : Config) :
    (∀ (n : Nat) (u : UniqDict) (kept : List SeqRec) (dups : List Str)
        (r : SeqRec) (u' : UniqDict) (kept' : List SeqRec)
        (dups' : List Str),
        stepRec cfg n (u, kept, dups) r = some (u', kept', dups') →
        (GroupInv cfg u → GroupInv cfg u')
        ∧ ∀ uid e, alGet u uid = some e →
            ∃ e', alGet u' uid = some e' ∧ e'.ambig ≤ e.ambig)
    ∧ (∀ (budgets : List Nat) (u : UniqDict) (p : List SeqRec)
        (dk : List Str) (res : UniqDict × List SeqRec × List Str) (c : Nat),
        runPasses cfg budgets u p dk = some (res, c) →
        (GroupInv cfg u → GroupInv cfg res.1)
        ∧ ∀ uid e, alGet u uid = some e →
            ∃ e', alGet res.1 uid = some e' ∧ e'.ambig ≤ e.ambig) := by
  constructor
  · intro n u kept dups r u' kept' dups' h
    obtain ⟨_, _, h3, h4⟩ :=
      stepRec_spec_one cfg n u kept dups r u' kept' dups' h
    exact ⟨h3, h4⟩
  · intro budgets u p dk res c h
    obtain ⟨_, _, _, h4, h5⟩ := runPasses_spec cfg budgets u p dk res c h
    exact ⟨h4, h5⟩

/-- Witness for `c10_group_invariant`: a pass that folds `recB` into
    `recA`'s group keeps the group's key and does not increase its stored
    ambiguous count. -/
theorem c10_group_invariant_witness :
    ∃ e', alGet [(uidA, UniqEntry.mk recA 2 1 [])] uidA = some e' ∧
      e'.ambig ≤ entryA.ambig := by
  have h := (c10_group_invariant cfg0).2 [1] [(uidA, entryA)] [recB] []
    ([(uidA, ⟨recA, 2, 1, []⟩)], [], [recB.id]) 1 (by decide)
  exact h.2 uidA entryA (by decide)

/-- Claim C7: with all other parameters fixed, increasing `maxMissing` only
    shrinks the undetermined output, and every record that was unique or a
    duplicate under the smaller budget is still unique or a duplicate —
    never undetermined — under the larger one. -/
theorem c7_monotonic (cfg : Config) (mm mm' : Nat) (recs : List SeqRec)
    (res res' : UniqDict × List SeqRec × List Str) (c c' : Nat)
    (hmm : mm ≤ mm')
    (hnd : (recs.map (fun r => r.id)).Nodup)
    (h : collapseRun cfg mm recs = some (res, c))
    (h' : collapseRun cfg mm' recs = some (res', c')) :
    (∀ r, r ∈ res'.2.1 → r ∈ res.2.1)
    ∧ (∀ r ∈ recs, isUniqueOrDup res.1 res.2.2 r.id →
        r ∉ res'.2.1 ∧ isUniqueOrDup res'.1 res'.2.2 r.id) := by
  obtain ⟨hp, hm1, _, _, _⟩ :=
    runPasses_spec cfg (List.range (mm + 1)) [] recs [] res c h
  obtain ⟨hp', hm1', _, _, _⟩ :=
    runPasses_spec cfg (List.range (mm' + 1)) [] recs [] res' c' h'
  have hpend : res.2.1 = recs.filter
      (fun r => decide (mm < ambigCount (effSeq cfg r))) := by
    rw [hp]
    refine List.filter_congr (fun r hr => ?_)
    rw [passedBy_range, not_le_decide]
  have hpend' : res'.2.1 = recs.filter
      (fun r => decide (mm' < ambigCount (effSeq cfg r))) := by
    rw [hp']
    refine List.filter_congr (fun r hr => ?_)
    rw [passedBy_range, not_le_decide]
  have hmult : repIds res.1 + (res.2.2 : Multiset Str) =
      ↑((recs.filter (fun r =>
        decide (ambigCount (effSeq cfg r) ≤ mm))).map (fun r => r.id)) := by
    rw [hm1]
    have hfc : recs.filter (fun r =>
        passedBy (List.range (mm + 1)) (ambigCount (effSeq cfg r))) =
      recs.filter (fun r => decide (ambigCount (effSeq cfg r) ≤ mm)) :=
      List.filter_congr (fun r hr => passedBy_range mm _)
    rw [hfc]
    simp [repIds]
  have hmult' : repIds res'.1 + (res'.2.2 : Multiset Str) =
      ↑((recs.filter (fun r =>
        decide (ambigCount (effSeq cfg r) ≤ mm'))).map (fun r => r.id)) := by
    rw [hm1']
    have hfc : recs.filter (fun r =>
        passedBy (List.range (mm' + 1)) (ambigCount (effSeq cfg r))) =
      recs.filter (fun r => decide (ambigCount (effSeq cfg r) ≤ mm')) :=
      List.filter_congr (fun r hr => passedBy_range mm' _)
    rw [hfc]
    simp [repIds]
  have hmem_iff : ∀ (rr : UniqDict × List SeqRec × List Str) (i : Str),
      isUniqueOrDup rr.1 rr.2.2 i ↔
        i ∈ repIds rr.1 + (rr.2.2 : Multiset Str) := by
    intro rr i
    rw [Multiset.mem_add]
    constructor
    · rintro (⟨p, hpm, hpe⟩ | hdm)
      · exact Or.inl (Multiset.mem_coe.2
          (List.mem_map.2 ⟨p, hpm, hpe⟩))
      · exact Or.inr (Multiset.mem_coe.2 hdm)
    · rintro (hrm | hdm)
      · obtain ⟨p, hpm, hpe⟩ := List.mem_map.1 (Multiset.mem_coe.1 hrm)
        exact Or.inl ⟨p, hpm, hpe⟩
      · exact Or.inr (Multiset.mem_coe.1 hdm)
  refine ⟨?_, ?_⟩
  · intro r hr
    rw [hpend'] at hr
    obtain ⟨hrm, hrc⟩ := List.mem_filter.1 hr
    rw [hpend]
    refine List.mem_filter.2 ⟨hrm, ?_⟩
    simp only [decide_eq_true_eq] at hrc ⊢
    exact lt_of_le_of_lt hmm hrc
  · intro r hr hud
    have hid : r.id ∈ (((recs.filter (fun r0 =>
        decide (ambigCount (effSeq cfg r0) ≤ mm))).map
          (fun r0 => r0.id) : List Str) : Multiset Str) :=
      hmult ▸ (hmem_iff res r.id).1 hud
    obtain ⟨r0, hr0f, hr0e⟩ := List.mem_map.1 (Multiset.mem_coe.1 hid)
    obtain ⟨hr0m, hr0c⟩ := List.mem_filter.1 hr0f
    have hreq : r0 = r := List.inj_on_of_nodup_map hnd hr0m hr hr0e
    subst hreq
    simp only [decide_eq_true_eq] at hr0c
    have hle' : ambigCount (effSeq cfg r0) ≤ mm' := le_trans hr0c hmm
    constructor
    · rw [hpend']
      intro hcon
      obtain ⟨_, hcc⟩ := List.mem_filter.1 hcon
      simp only [decide_eq_true_eq] at hcc
      exact absurd hle' (not_le.2 hcc)
    · refine (hmem_iff res' r0.id).2 ?_
      rw [hmult']
      exact Multiset.mem_coe.2 (List.mem_map.2
        ⟨r0, List.mem_filter.2 ⟨hr, by simpa using hle'⟩, rfl⟩)

/-- Witness for `c7_monotonic`: `recB`, unique under `maxMissing = 0`, stays
    unique-or-duplicate (and not undetermined) under `maxMissing = 1`. -/
theorem c7_monotonic_witness :
    recB ∉ ([] : List SeqRec) ∧
    isUniqueOrDup [(uidB, UniqEntry.mk recB 2 0 [])] [recA.id] recB.id := by
  have h := c7_monotonic cfg0 0 1 [recA, recB]
    ([(uidB, ⟨recB, 1, 0, []⟩)], [recA], [])
    ([(uidB, ⟨recB, 2, 0, []⟩)], [], [recA.id]) 1 2
    (by decide) (by decide) (by decide) (by decide)
  exact h.2 recB (by decide) (by decide)

theorem stepRecM_cnt (cfg : Config) (n : Nat) (u : UniqDict)
    (kept : List SeqRec) (dups : List Str) (g : List (UID × List Str))
    (r : SeqRec) (u' : UniqDict) (kept' : List SeqRec) (dups' : List Str)
    (h : stepRec cfg n (u, kept, dups) r = some (u', kept', dups'))
    (hginv : CntInv u g) : CntInv u' (ghostStep cfg n u r g) := by
  simp only [stepRec] at h
  rw [ghostStep]
  by_cases hlt : n < ambigCount (effSeq cfg r)
  · rw [if_pos hlt] at h
    rw [if_pos hlt]
    simp only [Option.some.injEq, Prod.mk.injEq] at h
    rw [← h.1]
    exact hginv
  · rw [if_neg hlt] at h
    rw [if_neg hlt]
    rcases huid : computeUID cfg r (effSeq cfg r) with _ | uid <;>
      rcases hcid : computeCID cfg r with _ | cid <;>
        simp only [huid, hcid] at h <;>
          try exact Option.noConfusion h
    simp only []
    rcases hfind : findUID uid u (decide (0 < n)) with _ | m <;>
      simp only [hfind] at h ⊢
    · simp only [Option.some.injEq, Prod.mk.injEq] at h
      rw [← h.1]
      intro w
      cases halg : alGet u w with
      | some e =>
        have hwg := hginv w
        rw [halg] at hwg
        cases halgg : alGet g w with
        | none =>
          rw [halgg] at hwg
          exact absurd hwg (by simp)
        | some ms =>
          rw [halgg] at hwg
          rw [alGet_append_left u _ w e halg,
            alGet_append_left g _ w ms halgg]
          exact hwg
      | none =>
        have hwg := hginv w
        rw [halg] at hwg
        have halgg : alGet g w = none := by
          cases halgg : alGet g w with
          | none => rfl
          | some ms =>
            rw [halgg] at hwg
            exact absurd hwg (by simp)
        rw [alGet_append_none u _ w halg, alGet_append_none g _ w halgg]
        by_cases hw : uid = w
        · subst hw
          simp [alGet_cons]
        · simp [alGet_cons, hw, alGet_nil]
    · rcases hget : alGet u m with _ | e <;> simp only [hget] at h
      · exact Option.noConfusion h
      have hgm : ∃ ms, alGet g m = some ms ∧ ms.length = e.count := by
        have hm := hginv m
        rw [hget] at hm
        cases hgm : alGet g m with
        | none =>
          rw [hgm] at hm
          exact absurd hm (by simp)
        | some ms =>
          rw [hgm] at hm
          refine ⟨ms, rfl, ?_⟩
          simpa using hm.symm
      obtain ⟨ms, hms, hlen⟩ := hgm
      have key : ∃ e₁ : UniqEntry, u' = alSet u m e₁ ∧
          e₁.count = e.count + 1 := by
        by_cases hle : ambigCount (effSeq cfg r) ≤ e.ambig
        · rw [if_pos hle] at h
          rcases hcmp : compareSwap cfg r e.rep with _ | sw <;>
            simp only [hcmp] at h
          · exact Option.noConfusion h
          cases sw
          · rw [if_neg (by simp)] at h
            simp only [Option.some.injEq, Prod.mk.injEq] at h
            exact ⟨_, h.1.symm, rfl⟩
          · rw [if_pos rfl] at h
            simp only [Option.some.injEq, Prod.mk.injEq] at h
            exact ⟨_, h.1.symm, rfl⟩
        · rw [if_neg hle] at h
          simp only [Option.some.injEq, Prod.mk.injEq] at h
          exact ⟨_, h.1.symm, rfl⟩
      obtain ⟨e₁, hu, hcnt⟩ := key
      rw [hu, hms]
      simp only [Option.getD_some]
      intro w
      by_cases hw : w = m
      · subst hw
        rw [alGet_alSet_self, alGet_alSet_self]
        simp [hcnt, hlen]
      · rw [alGet_alSet_ne u m w e₁ hw, alGet_alSet_ne g m w _ hw]
        exact hginv w

theorem optFold_stepRecM_spec (cfg : Config) (n : Nat) (l : List SeqRec) :
    ∀ (acc : UniqDict × List SeqRec × List Str) (g : List (UID × List Str))
      (out : (UniqDict × List SeqRec × List Str) × List (UID × List Str)),
      optFold (stepRecM cfg n) (acc, g) l = some out →
      optFold (stepRec cfg n) acc l = some out.1
      ∧ (CntInv acc.1 g → CntInv out.1.1 out.2) := by
  induction l with
  | nil =>
    intro acc g out h
    simp only [optFold, Option.some.injEq] at h
    subst h
    exact ⟨rfl, fun hi => hi⟩
  | cons r t ih =>
    intro acc g out h
    simp only [optFold, stepRecM] at h ⊢
    rcases hs : stepRec cfg n acc r with _ | b <;> simp only [hs] at h ⊢
    · exact Option.noConfusion h
    obtain ⟨h1, h2⟩ := ih b (ghostStep cfg n acc.1 r g) out h
    refine ⟨h1, fun hi => h2 ?_⟩
    obtain ⟨u, kept, dups⟩ := acc
    obtain ⟨u1, k1, d1⟩ := b
    exact stepRecM_cnt cfg n u kept dups g r u1 k1 d1 hs hi

theorem runPassesM_spec (cfg : Config) (budgets : List Nat) :
    ∀ (u : UniqDict) (p : List SeqRec) (dk : List Str)
      (g : List (UID × List Str))
      (out : ((UniqDict × List SeqRec × List Str) × Nat) ×
        List (UID × List Str)),
      runPassesM cfg budgets u p dk g = some out →
      runPasses cfg budgets u p dk = some out.1
      ∧ (CntInv u g → CntInv out.1.1.1 out.2) := by
  induction budgets with
  | nil =>
    intro u p dk g out h
    simp only [runPassesM, Option.some.injEq] at h
    subst h
    exact ⟨rfl, fun hi => hi⟩
  | cons n rest ih =>
    intro u p dk g out h
    simp only [runPassesM] at h
    rcases hf : findUniqueSeqM cfg n u g p with _ | fres <;>
      simp only [hf] at h
    · exact Option.noConfusion h
    obtain ⟨⟨u2, sk2, dk2⟩, g2⟩ := fres
    have hff := optFold_stepRecM_spec cfg n p (u, [], []) g
      ((u2, sk2, dk2), g2) hf
    have hfu : findUniqueSeq cfg n u p = some (u2, sk2, dk2) := hff.1
    by_cases hemp : sk2.isEmpty
    · rw [if_pos hemp] at h
      simp only [Option.some.injEq] at h
      subst h
      refine ⟨?_, fun hi => hff.2 hi⟩
      simp only [runPasses, hfu, if_pos hemp]
    · rw [if_neg hemp] at h
      rcases hrec : runPassesM cfg rest u2 sk2 (dk ++ dk2) g2 with _ | pr <;>
        simp only [hrec] at h
      · exact Option.noConfusion h
      obtain ⟨⟨res0, c0⟩, g3⟩ := pr
      simp only [Option.some.injEq] at h
      subst h
      obtain ⟨hr1, hr2⟩ := ih u2 sk2 (dk ++ dk2) g2 ((res0, c0), g3) hrec
      refine ⟨?_, fun hi => hr2 (hff.2 hi)⟩
      simp only [runPasses, hfu, if_neg hemp, hr1]

theorem alGet_none_of_keys {κ α : Type} [DecidableEq κ]
    (m : List (κ × α)) (k : κ) (h : ∀ q ∈ m, q.1 ≠ k) : alGet m k = none := by
  induction m with
  | nil => exact alGet_nil k
  | cons p t ih =>
    rw [alGet_cons, if_neg (h p (List.mem_cons_self _ _))]
    exact ih (fun q hq => h q (List.mem_cons_of_mem _ hq))

/-- Claim C4: for every group of the final state, the stored duplicate count
    equals exactly the number of input records folded into the group,
    including the representative — it starts at 1 on creation and grows by 1
    per matched duplicate, so it equals the length of the group's ghost
    membership list; and the output assembly synthesizes exactly
    `DUPCOUNT = count` into the representative's merged annotation map. -/
theorem c4_dupcount (cfg : Config) (mm : Nat) (recs : List SeqRec)
    (out : ((UniqDict × List SeqRec × List Str) × Nat) ×
      List (UID × List Str))
    (h : collapseRunM cfg mm recs = some out) :
    collapseRun cfg mm recs = some out.1
    ∧ (∀ uid e, alGet out.1.1.1 uid = some e →
        ∃ ms, alGet out.2 uid = some ms ∧ e.count = ms.length)
    ∧ (∀ (e : UniqEntry) (ann : AnnotationMap),
        cfg.copyFields = none → cfg.copyActions = none →
        parseAnn cfg.delim e.rep.description = some ann →
        alGet ann dupcountKey = none →
        ∃ r', buildOne cfg e = some r' ∧
          alGet (mergeAnn ann (alSet [] dupcountKey [renderNat e.count])
            false) dupcountKey = some [renderNat e.count] ∧
          r'.id = flattenAnn cfg.delim
            (mergeAnn ann (alSet [] dupcountKey [renderNat e.count])
              false)) := by
  obtain ⟨hproj, hcnt⟩ :=
    runPassesM_spec cfg (List.range (mm + 1)) [] recs [] [] out h
  have hCnt0 : CntInv ([] : UniqDict) ([] : List (UID × List Str)) :=
    fun uid => rfl
  refine ⟨hproj, ?_, ?_⟩
  · intro uid e hg
    have hthis := hcnt hCnt0 uid
    rw [hg] at hthis
    cases hgm : alGet out.2 uid with
    | none =>
      rw [hgm] at hthis
      exact absurd hthis (by simp)
    | some ms =>
      rw [hgm] at hthis
      refine ⟨ms, rfl, ?_⟩
      simpa using hthis
  · intro e ann hcf hca hparse hfree
    have hmerge : mergeAnn ann (alSet [] dupcountKey [renderNat e.count])
        false = ann ++ [(dupcountKey, [renderNat e.count])] := by
      rw [alSet_nil]
      refine mergeAnn_fresh _ _ (fun q hq => ?_) (by simp)
      rw [List.mem_singleton.1 hq]
      exact ⟨hfree, show dupcountKey ≠ idKey from by decide⟩
    refine ⟨{ e.rep with
        id := flattenAnn cfg.delim
          (mergeAnn ann (alSet [] dupcountKey [renderNat e.count]) false),
        description := [] }, ?_, ?_, rfl⟩
    · simp only [buildOne, hparse, hcf, hca]
    · rw [hmerge, alGet_append_none ann _ dupcountKey hfree]
      simp [alGet_cons]

/-- Witness for `c4_dupcount` at a concrete two-record run: the single
    group's count 2 equals the length of its membership list. -/
theorem c4_dupcount_witness :
    ∃ ms, alGet [(uidB, [recB.id, recA.id])] uidB = some ms ∧
      (2 : Nat) = ms.length := by
  have h := c4_dupcount cfg0 1 [recA, recB]
    ((([(uidB, ⟨recB, 2, 0, []⟩)], [], [recA.id]), 2),
      [(uidB, [recB.id, recA.id])]) (by decide)
  exact h.2.1 uidB ⟨recB, 2, 0, []⟩ (by decide)

theorem alSet_append_self {κ α : Type} [DecidableEq κ]
    (m : List (κ × α)) (k : κ) (v w : α) (h : alGet m k = none) :
    alSet (m ++ [(k, v)]) k w = m ++ [(k, w)] := by
  induction m with
  | nil => simp [alSet_nil, alSet_cons]
  | cons p t ih =>
    rw [alGet_cons] at h
    by_cases hp : p.1 = k
    · rw [if_pos hp] at h
      exact absurd h (by simp)
    · rw [if_neg hp] at h
      rw [List.cons_append, alSet_cons, if_neg hp, ih h, List.cons_append]

theorem buildApp_spec : ∀ (T : List (Str × Str × List Str))
    (ann app : AnnotationMap) (ws : List (List Str)),
    (T.map (fun it => it.1)).Nodup →
    (∀ f ∈ T.map (fun it => it.1), alGet app f = none) →
    optMap (fun it => collapseValues it.2.1 it.2.2) T = some ws →
    buildApp T (ann, app) =
      some (List.foldl alErase ann (T.map (fun it => it.1)),
        app ++ (T.map (fun it => it.1)).zip ws) := by
  intro T
  induction T with
  | nil =>
    intro ann app ws hnd hfresh hw
    simp only [optMap, Option.some.injEq] at hw
    subst hw
    simp [buildApp, optFold]
  | cons it T' ih =>
    intro ann app ws hnd hfresh hw
    obtain ⟨f, a, s⟩ := it
    simp only [optMap] at hw
    rcases hcv : collapseValues a s with _ | w <;> simp only [hcv] at hw
    · exact Option.noConfusion hw
    rcases hrest : optMap (fun it => collapseValues it.2.1 it.2.2) T'
      with _ | ws' <;> simp only [hrest] at hw
    · exact Option.noConfusion hw
    simp only [Option.some.injEq] at hw
    subst hw
    have hnd2 : (f :: T'.map (fun it => it.1)).Nodup := by simpa using hnd
    have hfr : alGet app f = none := hfresh f (by simp)
    have hset1 : alSet app f s = app ++ [(f, s)] :=
      alSet_fresh_append _ _ _ hfr
    have hget1 : alGet (app ++ [(f, s)]) f = some s := by
      rw [alGet_append_none _ _ _ hfr, alGet_cons]
      simp
    have hca : collapseAnn a f (alSet app f s) = some (app ++ [(f, w)]) := by
      rw [hset1]
      simp only [collapseAnn, hget1, hcv]
      rw [alSet_append_self _ _ _ _ hfr]
    have hstep : buildApp ((f, a, s) :: T') (ann, app) =
        buildApp T' (alErase ann f, app ++ [(f, w)]) := by
      simp only [buildApp, optFold, hca]
    rw [hstep]
    have hnd' : (T'.map (fun it => it.1)).Nodup := (List.nodup_cons.1 hnd2).2
    have hne : ∀ f' ∈ T'.map (fun it => it.1), f' ≠ f := by
      intro f' hf' he
      exact (List.nodup_cons.1 hnd2).1 (he ▸ hf')
    have hfresh' : ∀ f' ∈ T'.map (fun it => it.1),
        alGet (app ++ [(f, w)]) f' = none := by
      intro f' hf'
      rw [alGet_append_none _ _ _ (hfresh f' (List.mem_cons_of_mem _ hf')),
        alGet_cons, if_neg (fun e => hne f' hf' e.symm)]
      exact alGet_nil _
    rw [ih (alErase ann f) (app ++ [(f, w)]) ws' hnd' hfresh' hrest]
    simp only [List.map_cons, List.foldl_cons, List.zip_cons_cons,
      List.append_assoc, List.singleton_append]

/-- Claim C8: for every group, each configured copy-field's collected value
    list is reduced by its configured collapse action, the raw copy-field
    entries are removed from the representative's parsed annotation map, the
    reduced single-valued fields plus a synthesized DUPCOUNT field are
    merged into that map, and the merged map is flattened into the output
    header, replacing the representative's stored description. -/
theorem c8_output (cfg : Config) (e : UniqEntry) (fs acts : List Str)
    (ann : AnnotationMap) (ws : List (List Str))
    (hfs : cfg.copyFields = some fs) (hacts : cfg.copyActions = some acts)
    (hlen1 : fs.length ≤ acts.length) (hlen2 : fs.length ≤ e.copies.length)
    (hnd : fs.Nodup)
    (hparse : parseAnn cfg.delim e.rep.description = some ann)
    (hw : optMap (fun it => collapseValues it.2.1 it.2.2)
      (fs.zip (acts.zip e.copies)) = some ws)
    (hdc : dupcountKey ∉ fs) :
    buildOne cfg e = some { e.rep with
      id := flattenAnn cfg.delim
        (mergeAnn (List.foldl alErase ann fs)
          (fs.zip ws ++ [(dupcountKey, [renderNat e.count])]) false),
      description := [] } := by
  have hkeys : (fs.zip (acts.zip e.copies)).map (fun it => it.1) = fs :=
    List.map_fst_zip fs _ (by rw [List.length_zip]; exact le_min hlen1 hlen2)
  have happ := buildApp_spec (fs.zip (acts.zip e.copies)) ann [] ws
    (by rw [hkeys]; exact hnd) (fun f hf => alGet_nil f) hw
  rw [hkeys] at happ
  have hfz : alGet (fs.zip ws) dupcountKey = none := by
    refine alGet_none_of_keys _ _ (fun q hq => ?_)
    intro he
    exact hdc (he ▸ (List.of_mem_zip hq).1)
  have happ2 : alSet (([] : AnnotationMap) ++ fs.zip ws) dupcountKey
      [renderNat e.count] =
        fs.zip ws ++ [(dupcountKey, [renderNat e.count])] := by
    rw [List.nil_append]
    exact alSet_fresh_append _ _ _ hfz
  simp only [buildOne, hparse, hfs, hacts, happ, happ2]

/-- Witness for `c8_output` at a concrete group with one `set`-collapsed
    copy field. -/
theorem c8_output_witness :
    buildOne cfgCopy entryF = some { entryF.rep with
      id := flattenAnn cfgCopy.delim
        (mergeAnn (List.foldl alErase annF ["F".toList])
          (["F".toList].zip [[[ 'x' ], [ 'y' ]]] ++
            [(dupcountKey, [renderNat entryF.count])]) false),
      description := [] } :=
  c8_output cfgCopy entryF ["F".toList] ["set".toList] annF
    [[[ 'x' ], [ 'y' ]]] (by decide) (by decide) (by decide) (by decide)
    (by decide) (by decide) (by decide) (by decide)

/-- Witness for `c9_expand` at a concrete header. -/
theorem c9_expand_witness :
    expandHeader defaultDelim '+' [[ 'F' ]] exMap9 =
      some (alErase exMap9 [ 'F' ] ++
        ([[ 'F', '1' ], [ 'F', '2' ]].zip
          (([[ 'a' ], [ 'b' ]] : List Str).map (fun p => [p])))) :=
  c9_expand defaultDelim '+' [ 'F' ] exMap9 [[ 'a', '+', 'b' ]]
    [[ 'a' ], [ 'b' ]] [[ 'F', '1' ], [ 'F', '2' ]]
    (by decide) (by decide) (by decide) (by decide) (by decide)

end Presto
